import Mathlib

/-!
# Verification of the route-generation pipeline (`scripts/generate-route.mjs`)

This file gives a shallow embedding of the algorithmic core of the route
generator: graph building, Dijkstra routing, waypoint stitching, topology
cleanup, uniform arc-length resampling, loop closure, bus-stop matching and
synthesis, and artifact serialization.

Modelling conventions:

* Game-space scalars are taken in an arbitrary linear ordered field `K`
  (instantiated at `ℝ` in the geometric theorems, and at `ℚ` when a witness
  needs to be evaluated).  Machine floating point is modelled as exact field
  arithmetic.
* `Math.hypot` is passed to each stage as an explicit function parameter
  `hyp : K → K → K`; the theorems about planar geometry instantiate it with
  the real Euclidean norm `hypR` below.
* JavaScript `Map`s are modelled as association lists where a `set` conses the
  new binding in front (lookup takes the first binding, which matches the
  `Map.get`-after-`Map.set` observable behaviour); `Set`s are plain lists.
* Loops whose iteration count is bounded by a value of the state are modelled
  either by well-founded recursion on that bound or by structural recursion on
  a fuel value that provably dominates the iteration count (each such fuel
  choice is justified by a lemma).
-/

namespace RouteGen

/-- A planar game-space point `(x, z)`. -/
abbrev Pt (K : Type) := K × K

/-- `Math.hypot` over the real numbers: the Euclidean norm of `(dx, dz)`. -/
noncomputable def hypR (dx dz : ℝ) : ℝ := Real.sqrt (dx ^ 2 + dz ^ 2)

/-- Planar Euclidean distance `dist2d(ax, az, bx, bz)` from the script,
expressed with an explicit hypot function. -/
def dist2d {K : Type} [LinearOrderedField K] (hyp : K → K → K) (a b : Pt K) : K :=
  hyp (a.1 - b.1) (a.2 - b.2)

/-- `Math.round(v * 10) / 10`, the 0.1-unit coordinate rounding used on every
emitted coordinate.  `Math.round` rounds half toward `+∞`, which is exactly
Mathlib's `round` (`round x = ⌊x + 1/2⌋`). -/
def round10 {K : Type} [LinearOrderedField K] [FloorRing K] (v : K) : K :=
  (round (v * 10) : ℤ) / 10

/-- Coordinatewise 0.1-unit rounding of a point. -/
def roundPt {K : Type} [LinearOrderedField K] [FloorRing K] (p : Pt K) : Pt K :=
  (round10 p.1, round10 p.2)

/-! ## Topology cleanup (main step 5a)

The script repeatedly scans the interior points of `cleanRoute` and removes
every point whose adjacent segment vectors have a negative dot product or where
either adjacent segment is shorter than `0.01`; it rescans until a pass removes
nothing, and finally collapses consecutive points at distance `≤ 0.5`.
The street-label array is filtered with the same index set; the labels do not
influence which indices are removed. -/

/-- Decision of the cleanup scan for interior index `i` of `route` (the body of
the `for` loop at step 5a): `true` when point `i` is to be removed.  The
`toRemove.has(i)` guard in the source is vacuous (only indices smaller than the
current one are ever in the set), so it is not modelled. -/
def removeIdx {K : Type} [LinearOrderedField K] (hyp : K → K → K)
    (route : List (Pt K)) (i : ℕ) : Bool :=
  let a := route.getD (i - 1) (0, 0)
  let b := route.getD i (0, 0)
  let c := route.getD (i + 1) (0, 0)
  let abx := b.1 - a.1
  let abz := b.2 - a.2
  let bcx := c.1 - b.1
  let bcz := c.2 - b.2
  let dot := abx * bcx + abz * bcz
  let magAB := hyp abx abz
  let magBC := hyp bcx bcz
  if magAB < 1/100 ∨ magBC < 1/100 then true
  else decide (dot / (magAB * magBC) < 0)

/-- The set of interior indices removed by one cleanup pass (`toRemove`). -/
def toRemove {K : Type} [LinearOrderedField K] (hyp : K → K → K)
    (route : List (Pt K)) : List ℕ :=
  (List.range route.length).filter fun i =>
    decide (1 ≤ i) && decide (i + 1 < route.length) && removeIdx hyp route i

/-- One cleanup pass: `cleanRoute.filter((_, i) => !toRemove.has(i))`. -/
def cleanPassOnce {K : Type} [LinearOrderedField K] (hyp : K → K → K)
    (route : List (Pt K)) : List (Pt K) :=
  (route.enum.filter fun ip => !(toRemove hyp route).contains ip.1).map Prod.snd

/-- The same index filter applied to the parallel street-label array. -/
def cleanPassLabels {K : Type} [LinearOrderedField K] (hyp : K → K → K)
    (route : List (Pt K)) (labels : List String) : List String :=
  (labels.enum.filter fun ip => !(toRemove hyp route).contains ip.1).map Prod.snd

/-- The `while (cleanPass)` fixed-point iteration, with fuel.  A pass that
removes anything strictly shrinks the list, so `route.length` passes always
reach the fixed point (`backtrackLoopGo_fixed` below); `backtrackLoop` runs the
loop with exactly that much fuel and hence is extensionally the source loop. -/
def backtrackLoopGo {K : Type} [LinearOrderedField K] (hyp : K → K → K) :
    ℕ → List (Pt K) → List (Pt K)
  | 0, route => route
  | fuel + 1, route =>
    if toRemove hyp route = [] then route
    else backtrackLoopGo hyp fuel (cleanPassOnce hyp route)

/-- Backtrack removal iterated to its fixed point. -/
def backtrackLoop {K : Type} [LinearOrderedField K] (hyp : K → K → K)
    (route : List (Pt K)) : List (Pt K) :=
  backtrackLoopGo hyp route.length route

/-- The collapse step that follows the fixed-point loop: walk the list and keep
a point only when it is more than `0.5` units from the previously kept point.
Empty input is impossible in the script (the route has at least 10 points);
it is mapped to the empty list. -/
def collapseGo {K : Type} [LinearOrderedField K] (hyp : K → K → K)
    (prev : Pt K) : List (Pt K) → List (Pt K)
  | [] => []
  | p :: rest =>
    if 1/2 < dist2d hyp p prev then p :: collapseGo hyp p rest
    else collapseGo hyp prev rest

/-- The duplicate-collapse step (`// Also remove duplicate consecutive points`). -/
def collapse {K : Type} [LinearOrderedField K] (hyp : K → K → K) :
    List (Pt K) → List (Pt K)
  | [] => []
  | p :: rest => p :: collapseGo hyp p rest

/-- The full topology-cleaning stage: backtrack removal to a fixed point,
then the collapse of near-duplicate consecutive points. -/
def cleanStage {K : Type} [LinearOrderedField K] (hyp : K → K → K)
    (route : List (Pt K)) : List (Pt K) :=
  collapse hyp (backtrackLoop hyp route)

/-- Dot product of the incoming and outgoing segment vectors at interior index
`i + 1` of `route` (the quantity tested by the cleanup scan). -/
def dotAt {K : Type} [LinearOrderedField K] (route : List (Pt K)) (i : ℕ) : K :=
  let a := route.getD i (0, 0)
  let b := route.getD (i + 1) (0, 0)
  let c := route.getD (i + 2) (0, 0)
  (b.1 - a.1) * (c.1 - b.1) + (b.2 - a.2) * (c.2 - b.2)

theorem mem_toRemove {K : Type} [LinearOrderedField K] (hyp : K → K → K)
    (route : List (Pt K)) (i : ℕ) :
    i ∈ toRemove hyp route ↔
      1 ≤ i ∧ i + 1 < route.length ∧ removeIdx hyp route i = true := by
  simp only [toRemove, List.mem_filter, List.mem_range, Bool.and_eq_true,
    decide_eq_true_eq]
  constructor
  · rintro ⟨-, ⟨h1, h2⟩, h3⟩
    exact ⟨h1, h2, h3⟩
  · rintro ⟨h1, h2, h3⟩
    exact ⟨by omega, ⟨h1, h2⟩, h3⟩

theorem cleanPassOnce_length_le {K : Type} [LinearOrderedField K] (hyp : K → K → K)
    (route : List (Pt K)) : (cleanPassOnce hyp route).length ≤ route.length := by
  calc (cleanPassOnce hyp route).length
      = (route.enum.filter fun ip => !(toRemove hyp route).contains ip.1).length := by
        simp [cleanPassOnce]
    _ ≤ route.enum.length := List.length_filter_le _ _
    _ = route.length := List.enum_length

theorem cleanPassOnce_length_lt {K : Type} [LinearOrderedField K] (hyp : K → K → K)
    (route : List (Pt K)) (h : toRemove hyp route ≠ []) :
    (cleanPassOnce hyp route).length < route.length := by
  obtain ⟨i, hi⟩ := List.exists_mem_of_ne_nil _ h
  have hmem := (mem_toRemove hyp route i).mp hi
  have hilt : i < route.length := by omega
  have henum : (i, route.get ⟨i, hilt⟩) ∈ route.enum := by
    rw [List.mk_mem_enum_iff_getElem?]
    exact List.getElem?_eq_getElem hilt
  calc (cleanPassOnce hyp route).length
      = (route.enum.filter fun ip => !(toRemove hyp route).contains ip.1).length := by
        simp [cleanPassOnce]
    _ < route.enum.length := by
        rw [List.length_filter_lt_length_iff_exists]
        refine ⟨(i, route.get ⟨i, hilt⟩), henum, ?_⟩
        simp [hi]
    _ = route.length := List.enum_length

theorem backtrackLoopGo_fixed {K : Type} [LinearOrderedField K] (hyp : K → K → K) :
    ∀ (fuel : ℕ) (route : List (Pt K)), route.length ≤ fuel →
      toRemove hyp (backtrackLoopGo hyp fuel route) = [] := by
  intro fuel
  induction fuel with
  | zero =>
    intro route hlen
    have : route = [] := List.length_eq_zero.mp (Nat.le_zero.mp hlen)
    subst this
    simp [backtrackLoopGo, toRemove]
  | succ fuel ih =>
    intro route hlen
    rw [backtrackLoopGo]
    by_cases hfix : toRemove hyp route = []
    · simp [hfix]
    · rw [if_neg hfix]
      exact ih _ (by
        have := cleanPassOnce_length_lt hyp route hfix
        omega)

theorem toRemove_backtrackLoop {K : Type} [LinearOrderedField K] (hyp : K → K → K)
    (route : List (Pt K)) : toRemove hyp (backtrackLoop hyp route) = [] :=
  backtrackLoopGo_fixed hyp route.length route le_rfl

/-- C9: every cleanup pass that removes something strictly shrinks the
polyline, and the fixed-point iteration ends in a state where a pass removes
nothing; hence the backtrack-removal iteration terminates on every finite
input polyline. -/
theorem backtrack_removal_terminates {K : Type} [LinearOrderedField K]
    (hyp : K → K → K) (route : List (Pt K)) :
    (toRemove hyp route ≠ [] →
      (cleanPassOnce hyp route).length < route.length) ∧
    toRemove hyp (backtrackLoop hyp route) = [] :=
  ⟨cleanPassOnce_length_lt hyp route, toRemove_backtrackLoop hyp route⟩

theorem removeIdx_backtrack_example :
    removeIdx (fun _ _ => (1 : ℚ)) [(0, 0), (1, 0), (0, 0)] 1 = true := by
  norm_num [removeIdx, List.getD]

theorem toRemove_backtrack_example :
    toRemove (fun _ _ => (1 : ℚ)) [(0, 0), (1, 0), (0, 0)] ≠ [] :=
  List.ne_nil_of_mem
    ((mem_toRemove (fun _ _ => (1 : ℚ)) [(0, 0), (1, 0), (0, 0)] 1).mpr
      ⟨le_rfl, by norm_num, removeIdx_backtrack_example⟩)

/-- Witness for C9 at a concrete polyline with a genuine backtrack point. -/
theorem backtrack_removal_terminates_witness :
    toRemove (fun _ _ => (1 : ℚ)) [(0, 0), (1, 0), (0, 0)] ≠ [] ∧
      (cleanPassOnce (fun _ _ => (1 : ℚ)) [(0, 0), (1, 0), (0, 0)]).length <
        ([(0, 0), (1, 0), (0, 0)] : List (Pt ℚ)).length :=
  ⟨toRemove_backtrack_example,
    (backtrack_removal_terminates (fun _ _ => (1 : ℚ))
      [(0, 0), (1, 0), (0, 0)]).1 toRemove_backtrack_example⟩

theorem removeIdx_eq_false_iff {K : Type} [LinearOrderedField K] (hyp : K → K → K)
    (route : List (Pt K)) (i : ℕ) :
    removeIdx hyp route i = false ↔
      ¬(hyp ((route.getD i (0, 0)).1 - (route.getD (i - 1) (0, 0)).1)
          ((route.getD i (0, 0)).2 - (route.getD (i - 1) (0, 0)).2) < 1/100 ∨
        hyp ((route.getD (i + 1) (0, 0)).1 - (route.getD i (0, 0)).1)
          ((route.getD (i + 1) (0, 0)).2 - (route.getD i (0, 0)).2) < 1/100) ∧
      ¬((((route.getD i (0, 0)).1 - (route.getD (i - 1) (0, 0)).1) *
            ((route.getD (i + 1) (0, 0)).1 - (route.getD i (0, 0)).1) +
          ((route.getD i (0, 0)).2 - (route.getD (i - 1) (0, 0)).2) *
            ((route.getD (i + 1) (0, 0)).2 - (route.getD i (0, 0)).2)) /
         (hyp ((route.getD i (0, 0)).1 - (route.getD (i - 1) (0, 0)).1)
            ((route.getD i (0, 0)).2 - (route.getD (i - 1) (0, 0)).2) *
          hyp ((route.getD (i + 1) (0, 0)).1 - (route.getD i (0, 0)).1)
            ((route.getD (i + 1) (0, 0)).2 - (route.getD i (0, 0)).2)) < 0) := by
  unfold removeIdx
  by_cases hshort :
      hyp ((route.getD i (0, 0)).1 - (route.getD (i - 1) (0, 0)).1)
          ((route.getD i (0, 0)).2 - (route.getD (i - 1) (0, 0)).2) < 1/100 ∨
        hyp ((route.getD (i + 1) (0, 0)).1 - (route.getD i (0, 0)).1)
          ((route.getD (i + 1) (0, 0)).2 - (route.getD i (0, 0)).2) < 1/100
  · simp [hshort]
  · simp [hshort]

/-- C5 (amended): after the backtrack-removal fixed point — before the
collapse of near-duplicate consecutive points — every interior point has
nonnegative dot product of its incoming and outgoing segment vectors. -/
theorem backtrackLoop_no_reflex {K : Type} [LinearOrderedField K]
    (hyp : K → K → K) (route : List (Pt K)) (i : ℕ)
    (h : i + 2 < (backtrackLoop hyp route).length) :
    0 ≤ dotAt (backtrackLoop hyp route) i := by
  have hfix := toRemove_backtrackLoop hyp route
  have hnot : ¬ (i + 1 ∈ toRemove hyp (backtrackLoop hyp route)) := by
    simp [hfix]
  rw [mem_toRemove] at hnot
  push_neg at hnot
  have hrm : removeIdx hyp (backtrackLoop hyp route) (i + 1) = false := by
    have := hnot (by omega) (by omega)
    simpa using this
  rw [removeIdx_eq_false_iff] at hrm
  obtain ⟨hlong, hquot⟩ := hrm
  push_neg at hlong
  rw [not_lt] at hquot
  simp only [Nat.add_sub_cancel] at hlong hquot
  set a := (backtrackLoop hyp route).getD i (0, 0)
  set b := (backtrackLoop hyp route).getD (i + 1) (0, 0)
  set c := (backtrackLoop hyp route).getD (i + 2) (0, 0)
  have hm1 : (0 : K) < hyp (b.1 - a.1) (b.2 - a.2) := lt_of_lt_of_le (by norm_num) hlong.1
  have hm2 : (0 : K) < hyp (c.1 - b.1) (c.2 - b.2) := lt_of_lt_of_le (by norm_num) hlong.2
  have hprod : (0 : K) < hyp (b.1 - a.1) (b.2 - a.2) * hyp (c.1 - b.1) (c.2 - b.2) :=
    mul_pos hm1 hm2
  have hdot : (0 : K) ≤ (b.1 - a.1) * (c.1 - b.1) + (b.2 - a.2) * (c.2 - b.2) := by
    have := mul_nonneg hquot hprod.le
    rwa [div_mul_cancel₀ _ hprod.ne'] at this
  exact hdot

/-- A polyline at which the first cleanup scan removes nothing is returned
unchanged by the fixed-point loop. -/
theorem backtrackLoop_of_fixed {K : Type} [LinearOrderedField K] (hyp : K → K → K)
    (route : List (Pt K)) (h : toRemove hyp route = []) :
    backtrackLoop hyp route = route := by
  rw [backtrackLoop]
  cases hl : route.length with
  | zero => rw [backtrackLoopGo]
  | succ n => rw [backtrackLoopGo, if_pos h]

theorem backtrackLoop_straight_example :
    backtrackLoop (fun _ _ => (1 : ℚ)) [(0, 0), (1, 0), (2, 0)] =
      [(0, 0), (1, 0), (2, 0)] := by
  apply backtrackLoop_of_fixed
  norm_num [toRemove, removeIdx, List.getD, List.range_succ]

/-- Witness for the amended C5 theorem at a concrete three-point polyline. -/
theorem backtrackLoop_no_reflex_witness :
    0 + 2 < (backtrackLoop (fun _ _ => (1 : ℚ)) [(0, 0), (1, 0), (2, 0)]).length ∧
      0 ≤ dotAt (backtrackLoop (fun _ _ => (1 : ℚ)) [(0, 0), (1, 0), (2, 0)]) 0 :=
  ⟨by rw [backtrackLoop_straight_example]; norm_num,
    backtrackLoop_no_reflex (fun _ _ => (1 : ℚ)) [(0, 0), (1, 0), (2, 0)] 0
      (by rw [backtrackLoop_straight_example]; norm_num)⟩

@[simp] theorem hypR_right_zero (a : ℝ) : hypR a 0 = |a| := by
  rw [hypR]
  norm_num [Real.sqrt_sq_eq_abs]

@[simp] theorem hypR_left_zero (a : ℝ) : hypR 0 a = |a| := by
  rw [hypR]
  norm_num [Real.sqrt_sq_eq_abs]

/-- C5 counterexample: a polyline that is a fixed point of the backtrack scan
(all interior dot products are zero, all segments are long enough), on which
the final collapse step deletes the short middle segment and thereby creates a
new interior point with *negative* dot product.  The full cleaning stage hence
does not guarantee nonnegative dot products. -/
theorem cleanStage_reflex_counterexample :
    cleanStage hypR [(0, 0), (10, 0), (10, 2/5), (0, 2/5)] =
        [(0, 0), (10, 0), (0, 2/5)] ∧
      dotAt ([(0, 0), (10, 0), (0, 2/5)] : List (Pt ℝ)) 0 < 0 := by
  constructor
  · have htr : toRemove hypR [(0, 0), (10, 0), (10, 2/5), (0, 2/5)] = [] := by
      norm_num [toRemove, removeIdx, List.getD, List.range_succ, abs_of_nonneg]
    have hloop : backtrackLoop hypR [(0, 0), (10, 0), (10, 2/5), (0, 2/5)] =
        [(0, 0), (10, 0), (10, 2/5), (0, 2/5)] := backtrackLoop_of_fixed hypR _ htr
    rw [cleanStage, hloop]
    have hBD : (1/2 : ℝ) < dist2d hypR (0, 2/5) (10, 0) := by
      rw [dist2d]
      show (1/2 : ℝ) < hypR (0 - 10) (2/5 - 0)
      rw [hypR]
      rw [show ((0:ℝ) - 10) ^ 2 + (2/5 - 0) ^ 2 = 2504/25 by norm_num]
      rw [show (1/2 : ℝ) = Real.sqrt ((1/2)^2) by
        rw [Real.sqrt_sq]; norm_num]
      apply Real.sqrt_lt_sqrt <;> norm_num
    rw [collapse]
    rw [collapseGo, if_pos (by norm_num [dist2d] : (1/2:ℝ) < dist2d hypR (10,0) (0,0))]
    rw [collapseGo, if_neg (by norm_num [dist2d, abs_of_nonneg] :
      ¬ ((1/2:ℝ) < dist2d hypR (10,2/5) (10,0)))]
    rw [collapseGo, if_pos hBD]
    rw [collapseGo]
  · norm_num [dotAt, List.getD]

/-! ## Bus-stop matching (`matchBusStops`, lines 470–517)

A stop candidate records the matched polyline index, its distance to the
nearest route point and its (possibly null) display name.  The `lat`/`lon`
fields carried along in the script are never read downstream and are omitted.
The planar distance function `d` is passed explicitly; the script uses
`dist2d` (Euclidean, via `Math.hypot`). -/

structure Stop (K : Type) where
  idx : ℕ
  dist : K
  name : Option String
deriving DecidableEq

instance {K : Type} [Zero K] : Inhabited (Stop K) := ⟨⟨0, 0, none⟩⟩

/-- An OSM bus stop projected into game space (the elements of `gameStops`). -/
structure GameStop (K : Type) where
  gamePos : Pt K
  name : Option String
deriving DecidableEq

/-- JavaScript truthiness of a possibly-null string (`null` and `""` are
falsy); used for the `c.name` / `nearby.name` tests. -/
def truthy : Option String → Bool
  | none => false
  | some s => !(s == "")

/-- The inner scan of `matchBusStops`: the first index of a route point at
strictly minimal distance `d` from `p`, with that distance (`bestIdx` /
`bestDist`).  `none` for the empty route (`bestDist` stays `Infinity` in the
script, so no candidate is produced — see `mkCandidates`). -/
def nearestIdx {K : Type} [LinearOrderedField K] (d : Pt K → Pt K → K)
    (route : List (Pt K)) (p : Pt K) : Option (ℕ × K) :=
  route.enum.foldl
    (fun best ip =>
      match best with
      | none => some (ip.1, d p ip.2)
      | some (bi, bd) => if d p ip.2 < bd then some (ip.1, d p ip.2) else some (bi, bd))
    none

/-- Candidate construction: each game stop whose nearest route point is within
`matchRadius` becomes a candidate. -/
def mkCandidates {K : Type} [LinearOrderedField K] (d : Pt K → Pt K → K)
    (route : List (Pt K)) (gameStops : List (GameStop K)) (matchRadius : K) :
    List (Stop K) :=
  gameStops.filterMap fun s =>
    match nearestIdx d route s.gamePos with
    | none => none
    | some (bi, bd) => if bd ≤ matchRadius then some ⟨bi, bd, s.name⟩ else none

/-- The dedup window test `Math.abs(d.idx - c.idx) < 3`. -/
def nearIdx {K : Type} (dd c : Stop K) : Bool :=
  ((dd.idx : ℤ) - (c.idx : ℤ)).natAbs < 3

/-- One step of the dedup loop: find the first already-kept candidate within
the index window and either replace it (preferring a truthy name, then the
smaller distance) or drop the new candidate; with no nearby entry, append.
`find`+`indexOf` in the script locates the same (first) position that
`findIdx?` does. -/
def dedupInsert {K : Type} [LinearOrderedField K] (ded : List (Stop K))
    (c : Stop K) : List (Stop K) :=
  match ded.findIdx? (fun dd => nearIdx dd c) with
  | none => ded ++ [c]
  | some k =>
    let nearby := ded.getD k default
    if !truthy nearby.name && truthy c.name then ded.set k c
    else if truthy nearby.name && truthy c.name && decide (c.dist < nearby.dist) then
      ded.set k c
    else ded

/-- The dedup loop over the index-sorted candidate list. -/
def dedupAll {K : Type} [LinearOrderedField K] (cands : List (Stop K)) :
    List (Stop K) :=
  cands.foldl dedupInsert []

/-- The minimum-spacing scan, after the first accepted stop: keep a candidate
only when its matched route point is at least `MIN_STOP_SPACING = 40` from the
previously accepted stop's route point. -/
def spacingGo {K : Type} [LinearOrderedField K] (d : Pt K → Pt K → K)
    (route : List (Pt K)) (last : Stop K) : List (Stop K) → List (Stop K)
  | [] => []
  | c :: rest =>
    if 40 ≤ d (route.getD c.idx (0, 0)) (route.getD last.idx (0, 0)) then
      c :: spacingGo d route c rest
    else spacingGo d route last rest

/-- The minimum-spacing filter (`// Enforce minimum spacing`): the first
candidate is always accepted. -/
def spacingFilter {K : Type} [LinearOrderedField K] (d : Pt K → Pt K → K)
    (route : List (Pt K)) : List (Stop K) → List (Stop K)
  | [] => []
  | c :: rest => c :: spacingGo d route c rest

/-- `matchBusStops(route, gameStops, matchRadius)`.  The JavaScript
`candidates.sort((a, b) => a.idx - b.idx)` is a stable sort by index and is
modelled by the (stable) insertion sort; `selected.slice(0, 10)` is `take 10`. -/
def matchBusStops {K : Type} [LinearOrderedField K] (d : Pt K → Pt K → K)
    (route : List (Pt K)) (gameStops : List (GameStop K)) (matchRadius : K) :
    List (Stop K) :=
  (spacingFilter d route
    (dedupAll
      (List.insertionSort (fun a b => a.idx ≤ b.idx)
        (mkCandidates d route gameStops matchRadius)))).take 10

/-! ### The dedup invariant: kept candidates stay at least 3 indices apart -/

/-- The order relation maintained by the dedup loop. -/
def Gap3 {K : Type} (a b : Stop K) : Prop := a.idx + 3 ≤ b.idx

instance {K : Type} : IsTrans (Stop K) Gap3 :=
  ⟨fun _ _ _ hab hbc => by unfold Gap3 at *; omega⟩

instance {K : Type} : IsTotal (Stop K) (fun a b : Stop K => a.idx ≤ b.idx) :=
  ⟨fun a b => Nat.le_total a.idx b.idx⟩

instance {K : Type} : IsTrans (Stop K) (fun a b : Stop K => a.idx ≤ b.idx) :=
  ⟨fun _ _ _ hab hbc => le_trans hab hbc⟩

theorem mem_dedupInsert {K : Type} [LinearOrderedField K] (ded : List (Stop K))
    (c x : Stop K) (hx : x ∈ dedupInsert ded c) : x ∈ ded ∨ x = c := by
  unfold dedupInsert at hx
  rcases hfind : ded.findIdx? (fun dd => nearIdx dd c) with - | k <;> rw [hfind] at hx
  · rcases List.mem_append.mp hx with h | h
    · exact .inl h
    · exact .inr (List.mem_singleton.mp h)
  · simp only at hx
    split_ifs at hx with h1 h2
    · exact List.mem_or_eq_of_mem_set hx
    · exact List.mem_or_eq_of_mem_set hx
    · exact .inl hx

/-- Core step lemma: inserting a candidate whose index dominates every kept
index preserves the 3-gap chain, and every element of the result is either an
old element or the new candidate. -/
theorem dedupInsert_chain {K : Type} [LinearOrderedField K] (ded : List (Stop K))
    (c : Stop K) (hchain : List.Chain' Gap3 ded)
    (hle : ∀ x ∈ ded, x.idx ≤ c.idx) :
    List.Chain' Gap3 (dedupInsert ded c) := by
  unfold dedupInsert
  rcases hfind : ded.findIdx? (fun dd => nearIdx dd c) with - | k
  · -- no nearby entry: append, and the previous last is ≥ 3 away
    have hfar : ∀ x ∈ ded, ¬ (nearIdx x c = true) := by
      intro x hx
      rw [List.findIdx?_eq_none_iff] at hfind
      simp [hfind x hx]
    rw [List.chain'_append]
    refine ⟨hchain, List.chain'_singleton _, ?_⟩
    intro x hxl y hy
    rcases List.head?_eq_some_iff.mp hy with ⟨t, ht⟩
    have hyc : y = c := by
      have := congrArg List.head? ht
      simp at this
      exact this.symm
    subst hyc
    have hxmem : x ∈ ded := by
      rcases List.getLast?_eq_some_iff.mp hxl with ⟨l', hl'⟩
      rw [hl']
      exact List.mem_append.mpr (.inr (List.mem_singleton.mpr rfl))
    have h1 := hle x hxmem
    have h2 := hfar x hxmem
    unfold nearIdx at h2
    unfold Gap3
    simp only [decide_eq_true_eq] at h2
    omega
  · -- nearby entry found at position k: it must be the last entry
    have hk := (List.findIdx?_eq_some_iff_findIdx_eq.mp hfind).1
    have hkfind := (List.findIdx?_eq_some_iff_findIdx_eq.mp hfind).2
    have hknear : nearIdx (ded.get ⟨k, hk⟩) c = true := by
      have := (List.findIdx_eq hk).mp hkfind
      simpa using this.1
    have hkfirst : ∀ j (hj : j < k), nearIdx (ded.get ⟨j, by omega⟩) c = false := by
      intro j hj
      have := ((List.findIdx_eq hk).mp hkfind).2 j hj
      simpa using this
    have hklast : k + 1 = ded.length := by
      by_contra hne
      have hk1 : k + 1 < ded.length := by omega
      -- the entry after k would have to exceed c.idx
      have hgap : Gap3 (ded.get ⟨k, hk⟩) (ded.get ⟨k + 1, hk1⟩) := by
        rw [List.chain'_iff_get] at hchain
        have := hchain k (by omega)
        convert this using 2
      have hle1 := hle (ded.get ⟨k + 1, hk1⟩) (List.get_mem _ _ hk1)
      unfold nearIdx at hknear
      simp only [decide_eq_true_eq] at hknear
      unfold Gap3 at hgap
      omega
    -- common fact: replacing the last entry by c keeps the chain
    have hsetchain : List.Chain' Gap3 (ded.set k c) := by
      rw [List.chain'_iff_get]
      intro i hi
      rw [List.length_set] at hi
      have hik : i < k := by omega
      rw [List.get_eq_getElem, List.get_eq_getElem, List.getElem_set, List.getElem_set]
      rw [if_neg (by omega : ¬ k = i)]
      by_cases hik1 : k = i + 1
      · rw [if_pos hik1]
        have hxfar := hkfirst i (by omega)
        have hxle := hle (ded.get ⟨i, by omega⟩) (List.get_mem _ _ (by omega))
        unfold nearIdx at hxfar
        simp only [decide_eq_false_iff_not, decide_eq_true_eq, not_lt,
          List.get_eq_getElem] at hxfar
        unfold Gap3
        simp only [List.get_eq_getElem] at hxle ⊢
        omega
      · rw [if_neg hik1]
        rw [List.chain'_iff_get] at hchain
        have := hchain i (by omega)
        simpa using this
    simp only
    split_ifs with h1 h2
    · exact hsetchain
    · exact hsetchain
    · exact hchain

theorem dedupAll_go_chain {K : Type} [LinearOrderedField K] :
    ∀ (cands ded : List (Stop K)), List.Chain' Gap3 ded →
      (∀ x ∈ ded, ∀ c ∈ cands, x.idx ≤ c.idx) →
      List.Pairwise (fun a b : Stop K => a.idx ≤ b.idx) cands →
      List.Chain' Gap3 (cands.foldl dedupInsert ded) := by
  intro cands
  induction cands with
  | nil => intro ded h _ _; simpa using h
  | cons c rest ih =>
    intro ded hchain hle hsorted
    rw [List.foldl_cons]
    refine ih (dedupInsert ded c) ?_ ?_ (List.Pairwise.of_cons hsorted)
    · exact dedupInsert_chain ded c hchain fun x hx =>
        hle x hx c (List.mem_cons_self c rest)
    · intro x hx c' hc'
      rcases mem_dedupInsert ded c x hx with hxd | hxc
      · exact hle x hxd c' (List.mem_cons_of_mem c hc')
      · subst hxc
        exact (List.pairwise_cons.mp hsorted).1 c' hc'

theorem dedupAll_chain {K : Type} [LinearOrderedField K] (cands : List (Stop K))
    (hsorted : List.Pairwise (fun a b : Stop K => a.idx ≤ b.idx) cands) :
    List.Chain' Gap3 (dedupAll cands) :=
  dedupAll_go_chain cands [] (List.chain'_nil) (by simp) hsorted

/-! ## Street-name assignment, synthetic stops, and name dedup
(`assignStreetNames`, `deduplicateStopNames`, and main step 7) -/

/-- `streetLabels[Math.min(stop.idx, streetLabels.length - 1)] || 'Unknown'`.
For an empty label array the JavaScript index is `-1`, which reads
`undefined` and falls back to `'Unknown'`; `List.get?` at 0 does the same. -/
def labelFor (labels : List String) (i : ℕ) : String :=
  match labels.get? (min i (labels.length - 1)) with
  | none => "Unknown"
  | some s => if s == "" then "Unknown" else s

/-- `s.startsWith(pre)`, computed on the character lists (extensionally the
same as `String.startsWith`, but evaluable by the kernel). -/
def strStartsWith (s pre : String) : Bool :=
  pre.toList.isPrefixOf s.toList

/-- `stop.name.startsWith('Stop ')` under JavaScript short-circuiting: a null
name never reaches the prefix test. -/
def startsWithStop : Option String → Bool
  | none => false
  | some n => strStartsWith n "Stop "

/-- `assignStreetNames(stops, streetLabels)`: every stop whose name is falsy
or is a placeholder `Stop N` name gets the street label at its index. -/
def assignStreetNames {K : Type} [LinearOrderedField K] (stops : List (Stop K))
    (labels : List String) : List (Stop K) :=
  stops.map fun s =>
    if truthy s.name && !startsWithStop s.name then s
    else { s with name := some (labelFor labels s.idx) }

/-- `${s.name}` for the suffixing template: JavaScript stringifies a null
name as `"null"`. -/
def optStr : Option String → String
  | none => "null"
  | some s => s

/-- `deduplicateStopNames` (a fold carrying the `seen` multiplicity map, which
is keyed by the name the stop had when it was first seen). -/
def dedupStopNamesGo {K : Type} [LinearOrderedField K]
    (seen : List (Option String × ℕ)) : List (Stop K) → List (Stop K)
  | [] => []
  | s :: rest =>
    let count := ((seen.lookup s.name).getD 0) + 1
    let seen' := (s.name, count) :: seen
    let s' :=
      if 1 < count then
        { s with name := some (optStr s.name ++ " " ++
            (["North", "South", "East", "West", "Central"].getD ((count - 2) % 5) "")) }
      else s
    s' :: dedupStopNamesGo seen' rest

def deduplicateStopNames {K : Type} [LinearOrderedField K]
    (stops : List (Stop K)) : List (Stop K) :=
  dedupStopNamesGo [] stops

/-- The index sequence `for (let i = 0; i < routeLen - 1; i += interval)` of
the stop-synthesis loop, by structural recursion on a fuel that dominates the
iteration count (`routeLen` iterations suffice for `interval ≥ 1`, see
`synthIdxsGo_fuel`).  For `interval = 0` and `routeLen ≥ 2` the JavaScript
loop never terminates (the run then produces no artifact); `emitStage` below
maps that case to `none`, and `synthIdxs` itself returns `[]`. -/
def synthIdxsGo (stop interval : ℕ) : ℕ → ℕ → List ℕ
  | 0, _ => []
  | fuel + 1, i => if i < stop then i :: synthIdxsGo stop interval fuel (i + interval) else []

def synthIdxs (routeLen interval : ℕ) : List ℕ :=
  if interval = 0 then [] else synthIdxsGo (routeLen - 1) interval routeLen 0

/-- The synthetic stops `{ idx: i, name: 'Stop ' + i }` (they carry no
distance field in the script; the model's `dist` is never read for them). -/
def synthStops {K : Type} [LinearOrderedField K] (routeLen interval : ℕ) :
    List (Stop K) :=
  (synthIdxs routeLen interval).map fun i => ⟨i, 0, some ("Stop " ++ toString i)⟩

/-- The merge of synthetic stops into the matched list guarded by the
`allIndices` set: a synthetic stop is appended only when its index is new. -/
def mergeSyntheticGo {K : Type} [LinearOrderedField K] (allIdx : List ℕ)
    (acc : List (Stop K)) : List (Stop K) → List (Stop K)
  | [] => acc
  | s :: rest =>
    if allIdx.contains s.idx then mergeSyntheticGo allIdx acc rest
    else mergeSyntheticGo (s.idx :: allIdx) (acc ++ [s]) rest

def mergeSynthetic {K : Type} [LinearOrderedField K]
    (matched synthetic : List (Stop K)) : List (Stop K) :=
  mergeSyntheticGo (matched.map Stop.idx) matched synthetic

/-- Main steps 7 (stop matching, naming, synthesis) ending at the stop list
passed to `writeRouteData`.  `none` models the two ways the script fails to
reach the write: the diverging synthesis loop (`interval = 0` with
`routeLen ≥ 2`), and the crash of `deduplicateStopNames` on the `undefined`
head when the merged list is empty. -/
def emitStage {K : Type} [LinearOrderedField K] (d : Pt K → Pt K → K)
    (route : List (Pt K)) (gameStops : List (GameStop K)) (labels : List String) :
    Option (List (Stop K)) :=
  let matched := assignStreetNames (matchBusStops d route gameStops 30) labels
  if matched.length < 6 then
    let interval := route.length / 8
    if interval = 0 ∧ 2 ≤ route.length then none
    else
      let synthetic := assignStreetNames (synthStops route.length interval) labels
      match List.insertionSort (fun a b : Stop K => a.idx ≤ b.idx)
          (mergeSynthetic matched synthetic) with
      | [] => none
      | m0 :: rest =>
        some (deduplicateStopNames ((spacingFilter d route (m0 :: rest)).take 10))
  else some (deduplicateStopNames matched)

/-! ### Ordering and spacing of the selected stop list (C2) -/

instance {K : Type} : IsTrans (Stop K) (fun a b : Stop K => a.idx < b.idx) :=
  ⟨fun _ _ _ hab hbc => lt_trans hab hbc⟩

theorem chain'_take {α : Type} {R : α → α → Prop} (l : List α) (n : ℕ)
    (h : List.Chain' R l) : List.Chain' R (l.take n) := by
  have hsplit := List.take_append_drop n l
  rw [← hsplit] at h
  exact (List.chain'_append.mp h).1

theorem spacingGo_chain {K : Type} [LinearOrderedField K] (d : Pt K → Pt K → K)
    (route : List (Pt K)) :
    ∀ (rest : List (Stop K)) (last : Stop K),
      (∀ c ∈ rest, last.idx < c.idx) →
      List.Pairwise (fun a b : Stop K => a.idx < b.idx) rest →
      List.Chain'
        (fun a b : Stop K => a.idx < b.idx ∧
          40 ≤ d (route.getD b.idx (0, 0)) (route.getD a.idx (0, 0)))
        (last :: spacingGo d route last rest) := by
  intro rest
  induction rest with
  | nil => intro last _ _; simp [spacingGo]
  | cons c rest ih =>
    intro last hbound hpw
    rw [spacingGo]
    split_ifs with hsp
    · rw [List.chain'_cons]
      refine ⟨⟨hbound c (List.mem_cons_self c rest), hsp⟩, ?_⟩
      exact ih c (fun c' hc' => (List.pairwise_cons.mp hpw).1 c' hc')
        (List.Pairwise.of_cons hpw)
    · exact ih last (fun c' hc' => hbound c' (List.mem_cons_of_mem c hc'))
        (List.Pairwise.of_cons hpw)

theorem spacingFilter_chain {K : Type} [LinearOrderedField K] (d : Pt K → Pt K → K)
    (route : List (Pt K)) (l : List (Stop K))
    (hpw : List.Pairwise (fun a b : Stop K => a.idx < b.idx) l) :
    List.Chain'
      (fun a b : Stop K => a.idx < b.idx ∧
        40 ≤ d (route.getD b.idx (0, 0)) (route.getD a.idx (0, 0)))
      (spacingFilter d route l) := by
  cases l with
  | nil => simp [spacingFilter]
  | cons c rest =>
    rw [spacingFilter]
    exact spacingGo_chain d route rest c (fun c' hc' => (List.pairwise_cons.mp hpw).1 c' hc')
      (List.Pairwise.of_cons hpw)

/-- The combined chain gives strict index ordering (pairwise, by
transitivity) together with the consecutive spacing bound. -/
theorem chain'_and_to_parts {K : Type} [LinearOrderedField K] (d : Pt K → Pt K → K)
    (route : List (Pt K)) (l : List (Stop K))
    (h : List.Chain'
      (fun a b : Stop K => a.idx < b.idx ∧
        40 ≤ d (route.getD b.idx (0, 0)) (route.getD a.idx (0, 0))) l) :
    List.Pairwise (fun a b : Stop K => a.idx < b.idx) l ∧
      List.Chain'
        (fun a b : Stop K =>
          40 ≤ d (route.getD b.idx (0, 0)) (route.getD a.idx (0, 0))) l := by
  constructor
  · exact List.chain'_iff_pairwise.mp (List.Chain'.imp (fun a b hab => hab.1) h)
  · exact List.Chain'.imp (fun a b hab => hab.2) h

theorem matchBusStops_chain {K : Type} [LinearOrderedField K] (d : Pt K → Pt K → K)
    (route : List (Pt K)) (gameStops : List (GameStop K)) (matchRadius : K) :
    List.Chain'
      (fun a b : Stop K => a.idx < b.idx ∧
        40 ≤ d (route.getD b.idx (0, 0)) (route.getD a.idx (0, 0)))
      (matchBusStops d route gameStops matchRadius) := by
  rw [matchBusStops]
  apply chain'_take
  apply spacingFilter_chain
  have hsorted := List.sorted_insertionSort (fun a b : Stop K => a.idx ≤ b.idx)
    (mkCandidates d route gameStops matchRadius)
  have hchain := dedupAll_chain _ hsorted
  have hpw3 : List.Pairwise Gap3
      (dedupAll (List.insertionSort (fun a b : Stop K => a.idx ≤ b.idx)
        (mkCandidates d route gameStops matchRadius))) :=
    List.chain'_iff_pairwise.mp hchain
  exact hpw3.imp fun hab => by unfold Gap3 at hab; omega

/-! ### Index preservation through renaming and name dedup -/

theorem assignStreetNames_map_idx {K : Type} [LinearOrderedField K]
    (stops : List (Stop K)) (labels : List String) :
    (assignStreetNames stops labels).map Stop.idx = stops.map Stop.idx := by
  unfold assignStreetNames
  rw [List.map_map]
  apply List.map_congr_left
  intro s _
  simp only [Function.comp_apply]
  split <;> rfl

theorem dedupStopNamesGo_map_idx {K : Type} [LinearOrderedField K] :
    ∀ (stops : List (Stop K)) (seen : List (Option String × ℕ)),
      (dedupStopNamesGo seen stops).map Stop.idx = stops.map Stop.idx := by
  intro stops
  induction stops with
  | nil => intro seen; simp [dedupStopNamesGo]
  | cons s rest ih =>
    intro seen
    rw [dedupStopNamesGo]
    simp only [List.map_cons]
    rw [ih]
    congr 1
    split_ifs with h
    · rfl
    · rfl

theorem deduplicateStopNames_map_idx {K : Type} [LinearOrderedField K]
    (stops : List (Stop K)) :
    (deduplicateStopNames stops).map Stop.idx = stops.map Stop.idx :=
  dedupStopNamesGo_map_idx stops []

/-! ### Distinctness of merged indices -/

theorem mergeSyntheticGo_nodup {K : Type} [LinearOrderedField K] :
    ∀ (synth : List (Stop K)) (allIdx : List ℕ) (acc : List (Stop K)),
      (∀ x ∈ acc, x.idx ∈ allIdx) → (acc.map Stop.idx).Nodup →
      ((mergeSyntheticGo allIdx acc synth).map Stop.idx).Nodup := by
  intro synth
  induction synth with
  | nil => intro allIdx acc _ hnd; simpa [mergeSyntheticGo] using hnd
  | cons s rest ih =>
    intro allIdx acc hcov hnd
    rw [mergeSyntheticGo]
    split_ifs with hmem
    · exact ih allIdx acc hcov hnd
    · refine ih (s.idx :: allIdx) (acc ++ [s]) ?_ ?_
      · intro x hx
        rcases List.mem_append.mp hx with h | h
        · exact List.mem_cons_of_mem _ (hcov x h)
        · rw [List.mem_singleton.mp h]
          exact List.mem_cons_self _ _
      · rw [List.map_append]
        rw [List.nodup_append]
        refine ⟨hnd, by simp, ?_⟩
        intro a ha hb
        rw [List.map_singleton, List.mem_singleton] at hb
        subst hb
        rcases List.mem_map.mp ha with ⟨x, hxa, hxi⟩
        apply hmem
        rw [List.contains_iff_exists_mem_beq]
        exact ⟨x.idx, hcov x hxa, by simp [hxi]⟩

theorem mergeSynthetic_nodup {K : Type} [LinearOrderedField K]
    (matched synthetic : List (Stop K)) (hnd : (matched.map Stop.idx).Nodup) :
    ((mergeSynthetic matched synthetic).map Stop.idx).Nodup :=
  mergeSyntheticGo_nodup synthetic (matched.map Stop.idx) matched
    (fun _ hx => List.mem_map_of_mem Stop.idx hx) hnd

/-- A list sorted (non-strictly) by index with pairwise-distinct indices is
strictly index-sorted. -/
theorem sorted_nodup_strict {K : Type} [LinearOrderedField K]
    (l : List (Stop K))
    (hs : List.Pairwise (fun a b : Stop K => a.idx ≤ b.idx) l)
    (hnd : (l.map Stop.idx).Nodup) :
    List.Pairwise (fun a b : Stop K => a.idx < b.idx) l := by
  have hne : List.Pairwise (fun a b : Stop K => a.idx ≠ b.idx) l :=
    List.pairwise_map.mp hnd
  exact (hs.and hne).imp fun hab => lt_of_le_of_ne hab.1 hab.2

theorem pairwise_idx_congr {K : Type} {l₁ l₂ : List (Stop K)}
    (h : l₁.map Stop.idx = l₂.map Stop.idx)
    (hp : List.Pairwise (fun a b : Stop K => a.idx < b.idx) l₁) :
    List.Pairwise (fun a b : Stop K => a.idx < b.idx) l₂ := by
  have h1 : List.Pairwise (fun i j : ℕ => i < j) (l₁.map Stop.idx) :=
    List.pairwise_map.mpr hp
  rw [h] at h1
  exact List.pairwise_map.mp h1

theorem chain_spacing_congr {K : Type} [LinearOrderedField K]
    (d : Pt K → Pt K → K) (route : List (Pt K)) {l₁ l₂ : List (Stop K)}
    (h : l₁.map Stop.idx = l₂.map Stop.idx)
    (hc : List.Chain'
      (fun a b : Stop K =>
        40 ≤ d (route.getD b.idx (0, 0)) (route.getD a.idx (0, 0))) l₁) :
    List.Chain'
      (fun a b : Stop K =>
        40 ≤ d (route.getD b.idx (0, 0)) (route.getD a.idx (0, 0))) l₂ := by
  have h1 : List.Chain'
      (fun i j : ℕ => 40 ≤ d (route.getD j (0, 0)) (route.getD i (0, 0)))
      (l₁.map Stop.idx) := (List.chain'_map Stop.idx).mpr hc
  rw [h] at h1
  exact (List.chain'_map Stop.idx).mp h1

/-- Both output paths of the stop stage (direct matching, and the merge with
synthesized stops) produce a list with strictly increasing polyline indices
whose consecutive matched route points are at least 40 units apart. -/
theorem emitStage_sorted_spaced {K : Type} [LinearOrderedField K]
    (d : Pt K → Pt K → K) (route : List (Pt K)) (gameStops : List (GameStop K))
    (labels : List String) :
    List.Pairwise (fun a b : Stop K => a.idx < b.idx)
        ((emitStage d route gameStops labels).getD []) ∧
      List.Chain'
        (fun a b : Stop K =>
          40 ≤ d (route.getD b.idx (0, 0)) (route.getD a.idx (0, 0)))
        ((emitStage d route gameStops labels).getD []) := by
  have hmbs := chain'_and_to_parts d route _ (matchBusStops_chain d route gameStops 30)
  have hassign := assignStreetNames_map_idx (matchBusStops d route gameStops 30) labels
  have hmatched₁ : List.Pairwise (fun a b : Stop K => a.idx < b.idx)
      (assignStreetNames (matchBusStops d route gameStops 30) labels) :=
    pairwise_idx_congr hassign.symm hmbs.1
  have hmatched₂ := chain_spacing_congr d route hassign.symm hmbs.2
  have hmatchednd : ((assignStreetNames (matchBusStops d route gameStops 30)
      labels).map Stop.idx).Nodup := by
    rw [hassign]
    exact (List.pairwise_map.mpr hmbs.1).imp fun hab => Nat.ne_of_lt hab
  rw [emitStage]
  dsimp only
  split
  · -- synthesis path
    split
    · simp
    · split
      · simp
      · rename_i hlen hdiv m0 rest hmerged
        have hsortm : List.Pairwise (fun a b : Stop K => a.idx ≤ b.idx) (m0 :: rest) := by
          rw [← hmerged]
          exact List.sorted_insertionSort _ _
        have hndm : ((m0 :: rest).map Stop.idx).Nodup := by
          rw [← hmerged]
          have hperm := List.perm_insertionSort (fun a b : Stop K => a.idx ≤ b.idx)
            (mergeSynthetic (assignStreetNames (matchBusStops d route gameStops 30) labels)
              (assignStreetNames (synthStops route.length (route.length / 8)) labels))
          have hnd0 := mergeSynthetic_nodup
            (assignStreetNames (matchBusStops d route gameStops 30) labels)
            (assignStreetNames (synthStops route.length (route.length / 8)) labels)
            hmatchednd
          exact ((hperm.map Stop.idx).nodup_iff).mpr hnd0
        have hstrict := sorted_nodup_strict _ hsortm hndm
        have hchain := chain'_take _ 10 (spacingFilter_chain d route _ hstrict)
        have hparts := chain'_and_to_parts d route _ hchain
        have hidx := deduplicateStopNames_map_idx
          ((spacingFilter d route (m0 :: rest)).take 10) (K := K)
        simp only [Option.getD_some]
        exact ⟨pairwise_idx_congr hidx.symm hparts.1,
          chain_spacing_congr d route hidx.symm hparts.2⟩
  · -- direct path
    rename_i hlen
    have hidx := deduplicateStopNames_map_idx
      (assignStreetNames (matchBusStops d route gameStops 30) labels) (K := K)
    simp only [Option.getD_some]
    exact ⟨pairwise_idx_congr hidx.symm hmatched₁,
      chain_spacing_congr d route hidx.symm hmatched₂⟩

/-- C2: in the stop list produced by stop matching — both on the direct-match
path (`matchBusStops`) and on the path that merges synthesized stops — the
polyline indices are strictly increasing across the list, and adjacent stops'
matched route points are at least `MIN_STOP_SPACING = 40` game units apart in
planar Euclidean distance. -/
theorem stop_list_sorted_spaced (route : List (Pt ℝ))
    (gameStops : List (GameStop ℝ)) (labels : List String) (matchRadius : ℝ) :
    (List.Pairwise (fun a b : Stop ℝ => a.idx < b.idx)
        (matchBusStops (dist2d hypR) route gameStops matchRadius) ∧
      List.Chain'
        (fun a b : Stop ℝ =>
          40 ≤ dist2d hypR (route.getD b.idx (0, 0)) (route.getD a.idx (0, 0)))
        (matchBusStops (dist2d hypR) route gameStops matchRadius)) ∧
    (List.Pairwise (fun a b : Stop ℝ => a.idx < b.idx)
        ((emitStage (dist2d hypR) route gameStops labels).getD []) ∧
      List.Chain'
        (fun a b : Stop ℝ =>
          40 ≤ dist2d hypR (route.getD b.idx (0, 0)) (route.getD a.idx (0, 0)))
        ((emitStage (dist2d hypR) route gameStops labels).getD [])) :=
  ⟨chain'_and_to_parts (dist2d hypR) route _
      (matchBusStops_chain (dist2d hypR) route gameStops matchRadius),
    emitStage_sorted_spaced (dist2d hypR) route gameStops labels⟩

/-! ## Arc-length resampling (main step 5b)

`cumLen` is the cumulative arc length at each point of the cleaned route;
the sampling loop emits an interpolated (and 0.1-rounded) point every
`SAMPLE_INTERVAL = 25` units of arc length, re-using the bracketing segment
index across iterations, and finally appends the original last point when the
last sample is more than 1 unit away from it. -/

def cumLenGo {K : Type} [LinearOrderedField K] (hyp : K → K → K)
    (prev : Pt K) (acc : K) : List (Pt K) → List K
  | [] => []
  | p :: rest =>
    (acc + dist2d hyp p prev) :: cumLenGo hyp p (acc + dist2d hyp p prev) rest

def cumLen {K : Type} [LinearOrderedField K] (hyp : K → K → K) :
    List (Pt K) → List K
  | [] => []
  | p :: rest => 0 :: cumLenGo hyp p 0 rest

/-- `while (segIdx < cleanRoute.length - 2 && cumLen[segIdx + 1] < dist)
segIdx++`, with fuel.  The scan advances at most `n - 2` times, so a fuel of
`n` always suffices (`advanceSeg_fuel` below). -/
def advanceSeg {K : Type} [LinearOrderedField K] (cum : List K) (n : ℕ)
    (dist : K) : ℕ → ℕ → ℕ
  | 0, segIdx => segIdx
  | fuel + 1, segIdx =>
    if segIdx < n - 2 ∧ cum.getD (segIdx + 1) 0 < dist then
      advanceSeg cum n dist fuel (segIdx + 1)
    else segIdx

/-- Interpolation within the bracketing segment, with the 0.1 rounding applied
to the emitted coordinates. -/
def interpPoint {K : Type} [LinearOrderedField K] [FloorRing K]
    (route : List (Pt K)) (cum : List K) (s : ℕ) (dist : K) : Pt K :=
  let segStart := cum.getD s 0
  let segEnd := cum.getD (s + 1) 0
  let segLen := segEnd - segStart
  let t := if 0 < segLen then (dist - segStart) / segLen else 0
  let a := route.getD s (0, 0)
  let b := route.getD (s + 1) (0, 0)
  (round10 (a.1 + t * (b.1 - a.1)), round10 (a.2 + t * (b.2 - a.2)))

/-- The sampling loop `for (let dist = SAMPLE_INTERVAL; dist < totalLen;
dist += SAMPLE_INTERVAL)`, by structural recursion on a fuel that dominates
the iteration count (`sampleLoopGo_fuel` below shows `⌈totalLen/25⌉ + 1`
iterations always suffice). -/
def sampleLoopGo {K : Type} [LinearOrderedField K] [FloorRing K]
    (route : List (Pt K)) (cum : List K) (T : K) : ℕ → K → ℕ → List (Pt K)
  | 0, _, _ => []
  | fuel + 1, dist, segIdx =>
    if dist < T then
      interpPoint route cum (advanceSeg cum route.length dist route.length segIdx) dist ::
        sampleLoopGo route cum T fuel (dist + 25)
          (advanceSeg cum route.length dist route.length segIdx)
    else []

/-- Uniform arc-length resampling of the cleaned route (step 5b).  An empty
route cannot occur in the script (the route has at least 10 points before
cleanup and cleanup keeps the endpoints). -/
def resample {K : Type} [LinearOrderedField K] [FloorRing K] (hyp : K → K → K)
    (route : List (Pt K)) : List (Pt K) :=
  match route with
  | [] => []
  | p0 :: _ =>
    let cum := cumLen hyp route
    let T := cum.getLast?.getD 0
    let body := p0 :: sampleLoopGo route cum T ((Int.toNat ⌈T / 25⌉) + 1) 25 0
    let lastFull := route.getLast?.getD (0, 0)
    let lastSampled := body.getLast?.getD (0, 0)
    if 1 < dist2d hyp lastFull lastSampled then body ++ [lastFull] else body

/-- `closeLoop`: append a copy of the first point when first and last are more
than 5 units apart. -/
def closeLoop {K : Type} [LinearOrderedField K] (hyp : K → K → K)
    (route : List (Pt K)) : List (Pt K) :=
  match route with
  | [] => []
  | p0 :: _ =>
    if 5 < dist2d hyp p0 (route.getLast?.getD (0, 0)) then route ++ [(p0.1, p0.2)]
    else route

/-- The tail of `main` from the projected route on: the minimum-point fatal
check (step 3's guard, `routeLatLng.length` equals the projected route's
length), topology cleanup (5a), resampling (5b), loop closure (6), and the
stop stage (7) ending at the artifact write.  `none` means the run terminates
without writing an artifact.  The street-label array that `main` threads
alongside the route (it never influences emission or geometry, only display
names) is abstracted as the `labels` input. -/
def mainFromRoute {K : Type} [LinearOrderedField K] [FloorRing K]
    (hyp : K → K → K) (gameRoute : List (Pt K)) (gameStops : List (GameStop K))
    (labels : List String) : Option (List (Stop K)) :=
  if gameRoute.length < 10 then none
  else
    emitStage (dist2d hyp)
      (closeLoop hyp (resample hyp (collapse hyp (backtrackLoop hyp gameRoute))))
      gameStops labels

/-! ### The emitted stop list is capped at 10 entries (C10) -/

theorem dedupStopNamesGo_length {K : Type} [LinearOrderedField K] :
    ∀ (stops : List (Stop K)) (seen : List (Option String × ℕ)),
      (dedupStopNamesGo seen stops).length = stops.length := by
  intro stops
  induction stops with
  | nil => intro seen; simp [dedupStopNamesGo]
  | cons s rest ih =>
    intro seen
    rw [dedupStopNamesGo]
    simp only [List.length_cons]
    rw [ih]

theorem deduplicateStopNames_length {K : Type} [LinearOrderedField K]
    (stops : List (Stop K)) :
    (deduplicateStopNames stops).length = stops.length :=
  dedupStopNamesGo_length stops []

theorem matchBusStops_length_le {K : Type} [LinearOrderedField K]
    (d : Pt K → Pt K → K) (route : List (Pt K)) (gameStops : List (GameStop K))
    (matchRadius : K) :
    (matchBusStops d route gameStops matchRadius).length ≤ 10 := by
  rw [matchBusStops]
  exact List.length_take_le 10 _

/-- C10: both stop-selection paths truncate to the first 10 entries, so the
emitted stop list never has more than 10 entries. -/
theorem emitted_stops_le_ten {K : Type} [LinearOrderedField K]
    (d : Pt K → Pt K → K) (route : List (Pt K)) (gameStops : List (GameStop K))
    (labels : List String) (out : List (Stop K))
    (h : emitStage d route gameStops labels = some out) : out.length ≤ 10 := by
  rw [emitStage] at h
  dsimp only at h
  split at h
  · split at h
    · cases h
    · split at h
      · cases h
      · rw [Option.some_inj] at h
        subst h
        rw [deduplicateStopNames_length]
        exact List.length_take_le 10 _
  · rw [Option.some_inj] at h
    subst h
    rw [deduplicateStopNames_length]
    unfold assignStreetNames
    rw [List.length_map]
    exact matchBusStops_length_le d route gameStops 30

/-! ### Concrete evaluation of the stop stage on a straight resampled route -/

theorem strStartsWith_append_self (pre s : String) :
    strStartsWith (pre ++ s) pre = true := by
  unfold strStartsWith
  rw [show (pre ++ s).toList = pre.toList ++ s.toList from String.data_append pre s]
  rw [ List.isPrefixOf_iff_prefix]
  exact List.prefix_append _ _

theorem labelFor_nil (i : ℕ) : labelFor [] i = "Unknown" := by
  simp [labelFor]

/-- Synthetic stops always carry a `Stop N` placeholder name, so street-name
assignment renames every one of them. -/
theorem assignStreetNames_synthStops {K : Type} [LinearOrderedField K]
    (n int : ℕ) (labels : List String) :
    assignStreetNames (synthStops n int : List (Stop K)) labels =
      (synthIdxs n int).map fun i => ⟨i, 0, some (labelFor labels i)⟩ := by
  unfold assignStreetNames synthStops
  rw [List.map_map]
  apply List.map_congr_left
  intro i _
  simp [startsWithStop, strStartsWith_append_self]

/-- A nine-point resampled straight route (25-unit spacing, closing point
appended): the shape `main` reaches after resampling and loop closure. -/
def exRoute : List (Pt ℝ) :=
  [(0, 0), (25, 0), (50, 0), (75, 0), (100, 0), (125, 0), (150, 0), (175, 0), (0, 0)]

theorem matchBusStops_exRoute : matchBusStops (dist2d hypR) exRoute [] 30 = [] := by
  simp [matchBusStops, mkCandidates, dedupAll, spacingFilter]

/-- Full evaluation of the stop stage on `exRoute` with no OSM stops: the
synthesis path runs (zero matches), produces eight synthetic stops, and the
spacing filter keeps four of them; the artifact write is reached with those
four stops. -/
theorem emitStage_exRoute :
    emitStage (dist2d hypR) exRoute [] [] =
      some (deduplicateStopNames
        [⟨0, 0, some "Unknown"⟩, ⟨2, 0, some "Unknown"⟩,
         ⟨4, 0, some "Unknown"⟩, ⟨6, 0, some "Unknown"⟩]) := by
  rw [emitStage]
  dsimp only
  rw [matchBusStops_exRoute]
  rw [show assignStreetNames ([] : List (Stop ℝ)) [] = [] from rfl]
  rw [if_pos (by norm_num : ([] : List (Stop ℝ)).length < 6)]
  rw [show exRoute.length = 9 from rfl]
  rw [if_neg (by decide : ¬((9 : ℕ) / 8 = 0 ∧ 2 ≤ 9))]
  rw [assignStreetNames_synthStops]
  rw [show synthIdxs 9 (9 / 8) = [0, 1, 2, 3, 4, 5, 6, 7] from by decide]
  simp only [labelFor_nil, List.map_cons, List.map_nil]
  rw [show mergeSynthetic ([] : List (Stop ℝ))
      [⟨0, 0, some "Unknown"⟩, ⟨1, 0, some "Unknown"⟩, ⟨2, 0, some "Unknown"⟩,
       ⟨3, 0, some "Unknown"⟩, ⟨4, 0, some "Unknown"⟩, ⟨5, 0, some "Unknown"⟩,
       ⟨6, 0, some "Unknown"⟩, ⟨7, 0, some "Unknown"⟩] =
      [⟨0, 0, some "Unknown"⟩, ⟨1, 0, some "Unknown"⟩, ⟨2, 0, some "Unknown"⟩,
       ⟨3, 0, some "Unknown"⟩, ⟨4, 0, some "Unknown"⟩, ⟨5, 0, some "Unknown"⟩,
       ⟨6, 0, some "Unknown"⟩, ⟨7, 0, some "Unknown"⟩] from by
    simp [mergeSynthetic, mergeSyntheticGo]]
  rw [show List.insertionSort (fun a b : Stop ℝ => a.idx ≤ b.idx)
      [⟨0, 0, some "Unknown"⟩, ⟨1, 0, some "Unknown"⟩, ⟨2, 0, some "Unknown"⟩,
       ⟨3, 0, some "Unknown"⟩, ⟨4, 0, some "Unknown"⟩, ⟨5, 0, some "Unknown"⟩,
       ⟨6, 0, some "Unknown"⟩, ⟨7, 0, some "Unknown"⟩] =
      [⟨0, 0, some "Unknown"⟩, ⟨1, 0, some "Unknown"⟩, ⟨2, 0, some "Unknown"⟩,
       ⟨3, 0, some "Unknown"⟩, ⟨4, 0, some "Unknown"⟩, ⟨5, 0, some "Unknown"⟩,
       ⟨6, 0, some "Unknown"⟩, ⟨7, 0, some "Unknown"⟩] from by
    simp [List.insertionSort, List.orderedInsert]]
  have hsp : spacingFilter (dist2d hypR) exRoute
      [⟨0, 0, some "Unknown"⟩, ⟨1, 0, some "Unknown"⟩, ⟨2, 0, some "Unknown"⟩,
       ⟨3, 0, some "Unknown"⟩, ⟨4, 0, some "Unknown"⟩, ⟨5, 0, some "Unknown"⟩,
       ⟨6, 0, some "Unknown"⟩, ⟨7, 0, some "Unknown"⟩] =
      [⟨0, 0, some "Unknown"⟩, ⟨2, 0, some "Unknown"⟩,
       ⟨4, 0, some "Unknown"⟩, ⟨6, 0, some "Unknown"⟩] := by
    norm_num [spacingFilter, spacingGo, dist2d, exRoute, List.getD, abs_of_nonneg]
  dsimp only
  rw [hsp]
  rfl

/-- Witness for C10: the concrete run on `exRoute` reaches the write with a
stop list, and that list has at most 10 entries. -/
theorem emitted_stops_le_ten_witness :
    emitStage (dist2d hypR) exRoute [] [] =
        some (deduplicateStopNames
          [⟨0, 0, some "Unknown"⟩, ⟨2, 0, some "Unknown"⟩,
           ⟨4, 0, some "Unknown"⟩, ⟨6, 0, some "Unknown"⟩]) ∧
      (deduplicateStopNames
        [⟨0, 0, some "Unknown"⟩, ⟨2, 0, some "Unknown"⟩,
         ⟨4, 0, some "Unknown"⟩, ⟨6, 0, some "Unknown"⟩] : List (Stop ℝ)).length ≤ 10 :=
  ⟨emitStage_exRoute,
    emitted_stops_le_ten (dist2d hypR) exRoute [] [] _ emitStage_exRoute⟩

/-! ### Fatality (C7): the route-size check is fatal, a small stop count is not -/

/-- C7 counterexample: on `exRoute` with no OSM stops, stop matching plus
synthesis ends with only four stops — fewer than the six that trigger
synthesis in the first place — and the artifact is still written (the claim
says such a run must be fatal with no artifact). -/
theorem few_stops_still_emitted :
    ∃ stops, emitStage (dist2d hypR) exRoute [] [] = some stops ∧
      stops.length = 4 := by
  refine ⟨_, emitStage_exRoute, ?_⟩
  rw [deduplicateStopNames_length]
  rfl

theorem mergeSyntheticGo_length_le {K : Type} [LinearOrderedField K] :
    ∀ (synth : List (Stop K)) (allIdx : List ℕ) (acc : List (Stop K)),
      acc.length ≤ (mergeSyntheticGo allIdx acc synth).length := by
  intro synth
  induction synth with
  | nil => intro allIdx acc; simp [mergeSyntheticGo]
  | cons s rest ih =>
    intro allIdx acc
    rw [mergeSyntheticGo]
    split_ifs with h
    · exact ih allIdx acc
    · calc acc.length ≤ (acc ++ [s]).length := by simp
        _ ≤ _ := ih (s.idx :: allIdx) (acc ++ [s])

theorem synthIdxs_ne_nil (routeLen interval : ℕ) (hint : 1 ≤ interval)
    (hlen : 2 ≤ routeLen) : synthIdxs routeLen interval ≠ [] := by
  rw [synthIdxs, if_neg (by omega : ¬ interval = 0)]
  rcases Nat.exists_eq_add_of_le hlen with ⟨m, hm⟩
  rw [hm]
  rw [show 2 + m = (1 + m) + 1 from by omega]
  rw [synthIdxsGo]
  rw [if_pos (by omega : 0 < 1 + m + 1 - 1)]
  simp

theorem mergeSynthetic_ne_nil {K : Type} [LinearOrderedField K]
    (matched synthetic : List (Stop K))
    (h : matched ≠ [] ∨ synthetic ≠ []) : mergeSynthetic matched synthetic ≠ [] := by
  rw [mergeSynthetic]
  rcases h with h | h
  · intro hnil
    have := mergeSyntheticGo_length_le synthetic (matched.map Stop.idx) matched
    rw [hnil] at this
    simp at this
    exact h this
  · cases matched with
    | cons m rest =>
      intro hnil
      have := mergeSyntheticGo_length_le synthetic ((m :: rest).map Stop.idx) (m :: rest)
      rw [hnil] at this
      simp at this
    | nil =>
      cases synthetic with
      | nil => exact absurd rfl h
      | cons s rest =>
        rw [List.map_nil, mergeSyntheticGo]
        rw [if_neg (by simp)]
        intro hnil
        have := mergeSyntheticGo_length_le rest [s.idx] ([] ++ [s])
        rw [hnil] at this
        simp at this

/-- C7 (amended): the minimum-route-size check is the fatal gate — a route of
fewer than 10 points stops the run with no artifact — while the stop count
after synthesis is never checked: whenever the (closed, resampled) route has
at least 8 points the stop stage reaches the artifact write no matter how few
stops survive. -/
theorem route_min_fatal_stop_count_not {K : Type} [LinearOrderedField K]
    [FloorRing K] (hyp : K → K → K) (gameRoute : List (Pt K))
    (gameStops : List (GameStop K)) (labels : List String)
    (route2 : List (Pt K)) (gameStops2 : List (GameStop K)) (labels2 : List String) :
    (gameRoute.length < 10 → mainFromRoute hyp gameRoute gameStops labels = none) ∧
    (8 ≤ route2.length →
      (emitStage (dist2d hyp) route2 gameStops2 labels2).isSome = true) := by
  constructor
  · intro h
    rw [mainFromRoute, if_pos h]
  · intro h8
    rw [emitStage]
    dsimp only
    split
    · rw [if_neg (by
        rintro ⟨h0, -⟩
        have : 1 ≤ route2.length / 8 := (Nat.one_le_div_iff (by norm_num)).mpr h8
        omega)]
      have hne : mergeSynthetic
          (assignStreetNames (matchBusStops (dist2d hyp) route2 gameStops2 30) labels2)
          (assignStreetNames (synthStops route2.length (route2.length / 8)) labels2) ≠ [] := by
        apply mergeSynthetic_ne_nil
        right
        rw [assignStreetNames_synthStops]
        intro hnil
        rw [List.map_eq_nil_iff] at hnil
        exact synthIdxs_ne_nil route2.length (route2.length / 8)
          ((Nat.one_le_div_iff (by norm_num)).mpr h8) (by omega) hnil
      split
      · rename_i heq
        exfalso
        apply hne
        have hperm := List.perm_insertionSort (fun a b : Stop K => a.idx ≤ b.idx)
          (mergeSynthetic
            (assignStreetNames (matchBusStops (dist2d hyp) route2 gameStops2 30) labels2)
            (assignStreetNames (synthStops route2.length (route2.length / 8)) labels2))
        rw [heq] at hperm
        exact hperm.symm.eq_nil
      · simp
    · simp

/-- Witness for the amended C7 theorem: a one-point route is fatal, and the
concrete eight-plus-point run `exRoute` reaches the write. -/
theorem route_min_fatal_stop_count_not_witness :
    (([(0, 0)] : List (Pt ℝ)).length < 10 ∧
        mainFromRoute hypR [(0, 0)] [] [] = none) ∧
      (8 ≤ exRoute.length ∧ (emitStage (dist2d hypR) exRoute [] []).isSome = true) :=
  ⟨⟨by norm_num,
      (route_min_fatal_stop_count_not hypR [(0, 0)] [] [] exRoute [] []).1 (by norm_num)⟩,
    ⟨by norm_num [exRoute],
      (route_min_fatal_stop_count_not hypR [(0, 0)] [] [] exRoute [] []).2
        (by norm_num [exRoute])⟩⟩

/-! ## Artifact serialization (`writeRouteData`)

The emitted `routeData.js` file is modelled as its list of lines
(`routeDataLines`) and as the joined file contents (`writeRouteData`).
Number formatting (`${x}` on a JavaScript number) is abstracted as the
function parameter `fmt`; `now` is `new Date().toISOString()`. -/

structure Junction (K : Type) where
  x : K
  z : K
  radius : K
  name : String
  arms : ℕ
deriving DecidableEq

structure Stub (K : Type) where
  x : K
  z : K
  angle : K
  len : K
deriving DecidableEq

/-- `s.name.replace(/'/g, "\\'")`. -/
def escapeQuotes (s : String) : String := s.replace "'" "\\'"

/-- The 5-element chunking of the route array (`route.slice(i, i + 5)` with
`i += 5`), with fuel (the list length dominates the iteration count). -/
def chunksGo {α : Type} (n : ℕ) : ℕ → List α → List (List α)
  | 0, _ => []
  | _ + 1, [] => []
  | fuel + 1, x :: rest => (x :: rest).take n :: chunksGo n fuel ((x :: rest).drop n)

def chunks {α : Type} (n : ℕ) (l : List α) : List (List α) :=
  chunksGo n l.length l

/-- The fold computing `minX`/`maxX`/… (`Infinity` start modelled by the
`Option` accumulator). -/
def foldMin {K : Type} [LinearOrderedField K] (l : List K) : Option K :=
  l.foldl (fun acc x => match acc with | none => some x | some m => some (min m x)) none

def foldMax {K : Type} [LinearOrderedField K] (l : List K) : Option K :=
  l.foldl (fun acc x => match acc with | none => some x | some m => some (max m x)) none

/-- One line of the `ROUTE` array. -/
def routeLine {K : Type} (fmt : K → String) (chunk : List (Pt K)) : String :=
  "  " ++ String.intercalate ", "
    (chunk.map fun p => "[" ++ fmt p.1 ++ ", " ++ fmt p.2 ++ "]") ++ ","

def stopLine {K : Type} (s : Stop K) : String :=
  "  \x7b i: " ++ toString s.idx ++ ", n: '" ++ escapeQuotes (optStr s.name) ++ "' \x7d,"

def junctionLine {K : Type} (fmt : K → String) (j : Junction K) : String :=
  "  \x7b x: " ++ fmt j.x ++ ", z: " ++ fmt j.z ++ ", radius: " ++ fmt j.radius ++
    ", name: '" ++ escapeQuotes j.name ++ "', arms: " ++ toString j.arms ++ " \x7d,"

def stubLine {K : Type} (fmt : K → String) (s : Stub K) : String :=
  "  \x7b x: " ++ fmt s.x ++ ", z: " ++ fmt s.z ++ ", angle: " ++ fmt s.angle ++
    ", length: " ++ fmt s.len ++ " \x7d,"

/-- The emitted file, line by line.  The `BOUNDS` values are the route's
bounding box expanded by `BOUNDS_PADDING = 100` and rounded outward; the
writer is never called with an empty route in the script (`getD 0` stands in
for the `Infinity` fold start there). -/
def routeDataLines {K : Type} [LinearOrderedField K] [FloorRing K]
    (fmt : K → String) (now : String) (route : List (Pt K)) (stops : List (Stop K))
    (junctions : List (Junction K)) (sideRoads : List (Stub K)) : List String :=
  "// Auto-generated by scripts/generate-route.mjs — do not edit manually" ::
  "// Source: OpenStreetMap Overpass API (Westminster Loop, Central London)" ::
  ("// Generated: " ++ now) ::
  "" ::
  "export const ROUTE = [" ::
  ((chunks 5 route).map (routeLine fmt) ++
  "];" ::
  "" ::
  "export const STOPS = [" ::
  (stops.map stopLine ++
  "];" ::
  "" ::
  "export const BOUNDS = \x7b" ::
  ("  minX: " ++ toString (⌊((foldMin (route.map Prod.fst)).getD 0) - 100⌋ : ℤ) ++ ",") ::
  ("  maxX: " ++ toString (⌈((foldMax (route.map Prod.fst)).getD 0) + 100⌉ : ℤ) ++ ",") ::
  ("  minZ: " ++ toString (⌊((foldMin (route.map Prod.snd)).getD 0) - 100⌋ : ℤ) ++ ",") ::
  ("  maxZ: " ++ toString (⌈((foldMax (route.map Prod.snd)).getD 0) + 100⌉ : ℤ) ++ ",") ::
  "\x7d;" ::
  "" ::
  "export const JUNCTIONS = [" ::
  (junctions.map (junctionLine fmt) ++
  "];" ::
  "" ::
  "export const SIDE_ROADS = [" ::
  (sideRoads.map (stubLine fmt) ++
  "];" ::
  "" ::
  "export function newPax() \x7b" ::
  "  var p = [];" ::
  "  for (var i = 0; i < STOPS.length - 1; i++) \x7b" ::
  "    var c = 1 + Math.floor(Math.random() * 3);" ::
  "    for (var j = 0; j < c; j++) \x7b" ::
  "      var d = i + 1 + Math.floor(Math.random() * (STOPS.length - i - 1));" ::
  "      p.push(\x7b origin: i, dest: Math.min(d, STOPS.length - 1), on: false, done: false \x7d);" ::
  "    \x7d" ::
  "  \x7d" ::
  "  return p;" ::
  "\x7d" ::
  [""]))))

/-- The artifact's bytes: the lines joined with newlines. -/
def writeRouteData {K : Type} [LinearOrderedField K] [FloorRing K]
    (fmt : K → String) (now : String) (route : List (Pt K)) (stops : List (Stop K))
    (junctions : List (Junction K)) (sideRoads : List (Stub K)) : String :=
  String.intercalate "\n"
    (routeDataLines fmt now route stops junctions sideRoads)

/-- C4 counterexample: two runs of the writer on identical data but at
different wall-clock instants produce different artifacts — the
`// Generated:` header line embeds the timestamp, so the emitted file is not
byte-identical between runs. -/
theorem artifact_not_byte_identical :
    routeDataLines (fun _ : ℚ => "") "2024-01-01T00:00:00.000Z" [] [] [] [] ≠
      routeDataLines (fun _ : ℚ => "") "2024-01-01T00:00:01.000Z" [] [] [] [] := by
  intro h
  have h2 := congrArg (fun l => l.get? 2) h
  simp only [routeDataLines, List.get?] at h2
  exact absurd h2 (by decide)

/-- C4 (amended): the emitted artifact is byte-identical between two runs on
identical data and configuration once the `// Generated:` timestamp line
(line index 2) is removed — every other byte of the file depends only on the
inputs. -/
theorem artifact_deterministic_modulo_timestamp {K : Type} [LinearOrderedField K]
    [FloorRing K] (fmt : K → String) (now₁ now₂ : String) (route : List (Pt K))
    (stops : List (Stop K)) (junctions : List (Junction K))
    (sideRoads : List (Stub K)) :
    (routeDataLines fmt now₁ route stops junctions sideRoads).eraseIdx 2 =
        (routeDataLines fmt now₂ route stops junctions sideRoads).eraseIdx 2 ∧
      String.intercalate "\n"
          ((routeDataLines fmt now₁ route stops junctions sideRoads).eraseIdx 2) =
        String.intercalate "\n"
          ((routeDataLines fmt now₂ route stops junctions sideRoads).eraseIdx 2) := by
  constructor
  · rfl
  · rfl

/-! ### Dedup preference (C8) -/

theorem hypR_nonneg (a b : ℝ) : 0 ≤ hypR a b := Real.sqrt_nonneg _

theorem sqrt_cmp_5 : ¬ (Real.sqrt 10025 < 5) := by
  rw [not_lt, show (5:ℝ) = Real.sqrt 25 from by
    rw [show (25:ℝ) = 5 ^ 2 from by norm_num, Real.sqrt_sq (by norm_num)]]
  exact Real.sqrt_le_sqrt (by norm_num)

theorem sqrt_cmp_1 : (1:ℝ) < Real.sqrt 10001 := by
  rw [show (1:ℝ) = Real.sqrt 1 from by rw [Real.sqrt_one]]
  exact Real.sqrt_lt_sqrt (by norm_num) (by norm_num)

/-- C8 counterexample: two *unnamed* candidates whose matched indices differ
by 1 (within the dedup window), the second strictly closer (distance 1 versus
5); the code keeps the first, farther candidate, not the closer one. -/
theorem dedup_keeps_farther_unnamed :
    matchBusStops (dist2d hypR) [(0, 0), (100, 0)]
        [⟨(0, 5), none⟩, ⟨(100, 1), none⟩] 30 = [⟨0, 5, none⟩] := by
  have d00 : dist2d hypR (0, 5) ((0:ℝ), 0) = 5 := by
    norm_num [dist2d, abs_of_nonneg]
  have d01 : dist2d hypR (0, 5) ((100:ℝ), 0) = Real.sqrt 10025 := by
    rw [dist2d, hypR]
    norm_num
  have d10 : dist2d hypR (100, 1) ((0:ℝ), 0) = Real.sqrt 10001 := by
    rw [dist2d, hypR]
    norm_num
  have d11 : dist2d hypR (100, 1) ((100:ℝ), 0) = 1 := by
    norm_num [dist2d, abs_of_nonneg]
  have hn1 : nearestIdx (dist2d hypR) [(0, 0), (100, 0)] (0, 5) = some (0, 5) := by
    simp [nearestIdx, List.enum, List.enumFrom, d00, d01, sqrt_cmp_5,
      -Prod.mk_zero_zero]
  have hn2 : nearestIdx (dist2d hypR) [(0, 0), (100, 0)] (100, 1) = some (1, 1) := by
    simp [nearestIdx, List.enum, List.enumFrom, d10, d11,
      not_lt.mpr sqrt_cmp_1.le, -Prod.mk_zero_zero]
  have hcand : mkCandidates (dist2d hypR) [(0, 0), (100, 0)]
      [⟨(0, 5), none⟩, ⟨(100, 1), none⟩] 30 =
      [⟨0, 5, none⟩, ⟨1, 1, none⟩] := by
    simp only [mkCandidates, List.filterMap_cons, List.filterMap_nil, hn1, hn2]
    norm_num
  rw [matchBusStops, hcand]
  rw [show List.insertionSort (fun a b : Stop ℝ => a.idx ≤ b.idx)
      [⟨0, 5, none⟩, ⟨1, 1, none⟩] = [⟨0, 5, none⟩, ⟨1, 1, none⟩] from by
    simp [List.insertionSort, List.orderedInsert]]
  rw [show dedupAll [(⟨0, 5, none⟩ : Stop ℝ), ⟨1, 1, none⟩] = [⟨0, 5, none⟩] from by
    simp [dedupAll, dedupInsert, nearIdx, truthy]]
  rfl

/-- C8 (amended): when a new candidate falls within the 3-index dedup window
of an already-kept entry, exactly one of the two survives: with both names
truthy the closer one, with exactly the new one named the new one, and with
the new one unnamed the already-kept entry regardless of distance.  Over an
index-sorted candidate list the dedup output never retains two entries within
the window (their indices differ by at least 3). -/
theorem dedup_preference {K : Type} [LinearOrderedField K]
    (ded : List (Stop K)) (c nearby : Stop K) (k : ℕ)
    (hfind : ded.findIdx? (fun dd => nearIdx dd c) = some k)
    (hnb : ded.getD k default = nearby) :
    (truthy nearby.name = true → truthy c.name = true →
      dedupInsert ded c = if c.dist < nearby.dist then ded.set k c else ded) ∧
    (truthy nearby.name = false → truthy c.name = true →
      dedupInsert ded c = ded.set k c) ∧
    (truthy c.name = false → dedupInsert ded c = ded) ∧
    (∀ cands : List (Stop K),
      List.Pairwise (fun a b : Stop K => a.idx ≤ b.idx) cands →
      List.Pairwise Gap3 (dedupAll cands)) := by
  refine ⟨?_, ?_, ?_, ?_⟩
  · intro hn hc
    rw [dedupInsert, hfind]
    dsimp only
    rw [hnb, hn, hc]
    simp only [Bool.not_true, Bool.false_and, Bool.true_and, Bool.and_true]
    rw [if_neg (by simp)]
    by_cases hlt : c.dist < nearby.dist
    · rw [if_pos (by simp [hlt]), if_pos hlt]
    · rw [if_neg (by simp [hlt]), if_neg hlt]
  · intro hn hc
    rw [dedupInsert, hfind]
    dsimp only
    rw [hnb, hn, hc]
    simp
  · intro hc
    rw [dedupInsert, hfind]
    dsimp only
    rw [hnb, hc]
    simp
  · intro cands hsorted
    exact List.chain'_iff_pairwise.mp (dedupAll_chain cands hsorted)

theorem dedup_preference_witness :
    (List.findIdx? (fun dd => nearIdx dd (⟨1, 1, none⟩ : Stop ℚ))
        [(⟨0, 5, some "A"⟩ : Stop ℚ)] = some 0 ∧
      List.getD [(⟨0, 5, some "A"⟩ : Stop ℚ)] 0 default = ⟨0, 5, some "A"⟩) ∧
    (truthy (some "A") = false ∨
      dedupInsert [(⟨0, 5, some "A"⟩ : Stop ℚ)] ⟨1, 1, none⟩ =
        [(⟨0, 5, some "A"⟩ : Stop ℚ)]) :=
  ⟨⟨by decide, rfl⟩,
    .inr ((dedup_preference [(⟨0, 5, some "A"⟩ : Stop ℚ)] ⟨1, 1, none⟩
      ⟨0, 5, some "A"⟩ 0 (by decide) rfl).2.2.1 (by decide))⟩

/-! ### Resampling gap bound (C1)

The sampling loop emits, for each `dist = 25, 50, …` below the total arc
length, the point of the cleaned polyline at arc-length parameter `dist`
(rounded to 0.1 units per coordinate).  Consecutive emitted points therefore
lie at arc-length parameters 25 apart, and the chord between two points of a
polyline is at most the arc length between them; the two 0.1-unit coordinate
roundings each move a point by at most `√2/20 ≤ 3/40`, giving the bound
`25 + 3/20` for every consecutive pair except the final appended original
endpoint. -/

/-- The unrounded interpolated sample point; `interpPoint` is this followed
by the 0.1 rounding (`interpPoint_eq_roundPt`). -/
def interpRaw {K : Type} [LinearOrderedField K]
    (route : List (Pt K)) (cum : List K) (s : ℕ) (dist : K) : Pt K :=
  let segStart := cum.getD s 0
  let segEnd := cum.getD (s + 1) 0
  let segLen := segEnd - segStart
  let t := if 0 < segLen then (dist - segStart) / segLen else 0
  let a := route.getD s (0, 0)
  let b := route.getD (s + 1) (0, 0)
  (a.1 + t * (b.1 - a.1), a.2 + t * (b.2 - a.2))

theorem interpPoint_eq_roundPt {K : Type} [LinearOrderedField K] [FloorRing K]
    (route : List (Pt K)) (cum : List K) (s : ℕ) (dist : K) :
    interpPoint route cum s dist = roundPt (interpRaw route cum s dist) := rfl

/-- Planar points as complex numbers: `dist2d hypR` becomes the complex
absolute value, making the triangle inequality available. -/
def toC (p : Pt ℝ) : ℂ := ⟨p.1, p.2⟩

theorem dist2d_hypR (a b : Pt ℝ) :
    dist2d hypR a b = Complex.abs (toC a - toC b) := by
  simp only [dist2d, hypR, toC, Complex.abs_apply, Complex.normSq_apply,
    Complex.sub_re, Complex.sub_im]
  congr 1
  ring

theorem dist2d_hypR_nonneg (a b : Pt ℝ) : 0 ≤ dist2d hypR a b := by
  rw [dist2d_hypR]; exact (Complex.abs).nonneg _

theorem cumLenGo_length {K : Type} [LinearOrderedField K] (hyp : K → K → K) :
    ∀ (rest : List (Pt K)) (prev : Pt K) (acc : K),
      (cumLenGo hyp prev acc rest).length = rest.length := by
  intro rest
  induction rest with
  | nil => intro prev acc; rfl
  | cons p rest ih => intro prev acc; simp [cumLenGo, ih]

theorem cumLen_length {K : Type} [LinearOrderedField K] (hyp : K → K → K)
    (route : List (Pt K)) : (cumLen hyp route).length = route.length := by
  cases route with
  | nil => rfl
  | cons p rest => simp [cumLen, cumLenGo_length]

theorem cumLen_getD_zero {K : Type} [LinearOrderedField K] (hyp : K → K → K)
    (route : List (Pt K)) : (cumLen hyp route).getD 0 0 = 0 := by
  cases route with
  | nil => rfl
  | cons p rest => rfl

theorem cumLenGo_getD_succ {K : Type} [LinearOrderedField K] (hyp : K → K → K) :
    ∀ (rest : List (Pt K)) (prev : Pt K) (acc : K) (i : ℕ), i + 1 < rest.length →
      (cumLenGo hyp prev acc rest).getD (i + 1) 0 =
        (cumLenGo hyp prev acc rest).getD i 0 +
          dist2d hyp (rest.getD (i + 1) (0, 0)) (rest.getD i (0, 0)) := by
  intro rest
  induction rest with
  | nil => intro prev acc i h; simp at h
  | cons p rest ih =>
    intro prev acc i h
    match i with
    | 0 =>
      cases rest with
      | nil => simp at h
      | cons q rest2 =>
        simp [cumLenGo, List.getD_cons_zero, List.getD_cons_succ]
    | i + 1 =>
      have h2 : i + 1 < rest.length := by simpa using h
      simp only [cumLenGo, List.getD_cons_succ]
      exact ih p (acc + dist2d hyp p prev) i h2

theorem cumLen_getD_succ {K : Type} [LinearOrderedField K] (hyp : K → K → K)
    (route : List (Pt K)) (i : ℕ) (h : i + 1 < route.length) :
    (cumLen hyp route).getD (i + 1) 0 =
      (cumLen hyp route).getD i 0 +
        dist2d hyp (route.getD (i + 1) (0, 0)) (route.getD i (0, 0)) := by
  cases route with
  | nil => simp at h
  | cons p rest =>
    match i with
    | 0 =>
      cases rest with
      | nil => simp at h
      | cons q rest2 => simp [cumLen, cumLenGo]
    | i + 1 =>
      have h2 : i + 1 < rest.length := by simpa using h
      simp only [cumLen, List.getD_cons_succ]
      exact cumLenGo_getD_succ hyp rest p 0 i h2

theorem cumLen_mono (route : List (Pt ℝ)) :
    ∀ i j : ℕ, i ≤ j → j < route.length →
      (cumLen hypR route).getD i 0 ≤ (cumLen hypR route).getD j 0 := by
  intro i j hij
  induction j, hij using Nat.le_induction with
  | base => intro _; exact le_refl _
  | succ j hij ih =>
    intro hj
    have hj2 : j < route.length := by omega
    have hstep := cumLen_getD_succ hypR route j hj
    have hnn := dist2d_hypR_nonneg (route.getD (j + 1) (0, 0)) (route.getD j (0, 0))
    have := ih hj2
    linarith

theorem getLastD_eq_getD (l : List ℝ) :
    l.getLast?.getD 0 = l.getD (l.length - 1) 0 := by
  rw [List.getLast?_eq_getElem?, List.getD_eq_getElem?_getD]

theorem advanceSeg_bracket (cum : List ℝ) (n : ℕ) (dist : ℝ)
    (h2 : 2 ≤ n) (hT : dist < cum.getD (n - 1) 0) :
    ∀ (fuel segIdx : ℕ), cum.getD segIdx 0 < dist → segIdx ≤ n - 2 →
      n - 2 - segIdx ≤ fuel →
      cum.getD (advanceSeg cum n dist fuel segIdx) 0 < dist ∧
      dist ≤ cum.getD (advanceSeg cum n dist fuel segIdx + 1) 0 ∧
      advanceSeg cum n dist fuel segIdx ≤ n - 2 := by
  intro fuel
  induction fuel with
  | zero =>
    intro segIdx h1 hle hfuel
    have hseg : segIdx = n - 2 := by omega
    simp only [advanceSeg]
    refine ⟨h1, ?_, hle⟩
    rw [hseg, show n - 2 + 1 = n - 1 from by omega]
    exact hT.le
  | succ fuel ih =>
    intro segIdx h1 hle hfuel
    simp only [advanceSeg]
    by_cases hg : segIdx < n - 2 ∧ cum.getD (segIdx + 1) 0 < dist
    · rw [if_pos hg]
      exact ih (segIdx + 1) hg.2 (by omega) (by omega)
    · rw [if_neg hg]
      refine ⟨h1, ?_, hle⟩
      push_neg at hg
      by_cases hs : segIdx < n - 2
      · exact hg hs
      · have hseg : segIdx = n - 2 := by omega
        rw [hseg, show n - 2 + 1 = n - 1 from by omega]
        exact hT.le

theorem toC_interpRaw_sub_left (route : List (Pt ℝ)) (cum : List ℝ) (s : ℕ)
    (d : ℝ) (hseg : 0 < cum.getD (s + 1) 0 - cum.getD s 0) :
    toC (interpRaw route cum s d) - toC (route.getD s (0, 0)) =
      (((d - cum.getD s 0) / (cum.getD (s + 1) 0 - cum.getD s 0) : ℝ) : ℂ) *
        (toC (route.getD (s + 1) (0, 0)) - toC (route.getD s (0, 0))) := by
  apply Complex.ext
  · simp only [toC, interpRaw, Complex.sub_re, Complex.mul_re, Complex.sub_im,
      Complex.ofReal_re, Complex.ofReal_im, hseg, if_true]
    ring
  · simp only [toC, interpRaw, Complex.sub_re, Complex.mul_re, Complex.sub_im,
      Complex.mul_im, Complex.ofReal_re, Complex.ofReal_im, hseg, if_true]
    ring

theorem toC_interpRaw_sub_right (route : List (Pt ℝ)) (cum : List ℝ) (s : ℕ)
    (d : ℝ) (hseg : 0 < cum.getD (s + 1) 0 - cum.getD s 0) :
    toC (route.getD (s + 1) (0, 0)) - toC (interpRaw route cum s d) =
      (((cum.getD (s + 1) 0 - d) / (cum.getD (s + 1) 0 - cum.getD s 0) : ℝ) : ℂ) *
        (toC (route.getD (s + 1) (0, 0)) - toC (route.getD s (0, 0))) := by
  have hne : cum.getD (s + 1) 0 - cum.getD s 0 ≠ 0 := ne_of_gt hseg
  have e1 := toC_interpRaw_sub_left route cum s d hseg
  have hcalc : 1 - (d - cum.getD s 0) / (cum.getD (s + 1) 0 - cum.getD s 0) =
      (cum.getD (s + 1) 0 - d) / (cum.getD (s + 1) 0 - cum.getD s 0) := by
    rw [eq_div_iff hne, sub_mul, one_mul, div_mul_cancel₀ _ hne]
    ring
  rw [show toC (route.getD (s + 1) (0, 0)) - toC (interpRaw route cum s d) =
      (toC (route.getD (s + 1) (0, 0)) - toC (route.getD s (0, 0))) -
        (toC (interpRaw route cum s d) - toC (route.getD s (0, 0))) from by ring,
    e1, ← hcalc, Complex.ofReal_sub, Complex.ofReal_one]
  ring

theorem abs_segment (route : List (Pt ℝ)) (j : ℕ) (hj : j + 1 < route.length) :
    Complex.abs (toC (route.getD (j + 1) (0, 0)) - toC (route.getD j (0, 0))) =
      (cumLen hypR route).getD (j + 1) 0 - (cumLen hypR route).getD j 0 := by
  rw [← dist2d_hypR, cumLen_getD_succ hypR route j hj]
  ring

theorem abs_interpRaw_sub_left (route : List (Pt ℝ)) (s : ℕ) (d : ℝ)
    (hs : s + 1 < route.length)
    (hlt : (cumLen hypR route).getD s 0 < d)
    (hle : d ≤ (cumLen hypR route).getD (s + 1) 0) :
    Complex.abs (toC (interpRaw route (cumLen hypR route) s d) -
        toC (route.getD s (0, 0))) = d - (cumLen hypR route).getD s 0 := by
  have hseg : 0 < (cumLen hypR route).getD (s + 1) 0 -
      (cumLen hypR route).getD s 0 := by linarith
  rw [toC_interpRaw_sub_left route _ s d hseg, map_mul, Complex.abs_ofReal,
    abs_segment route s hs, abs_of_nonneg (div_nonneg (by linarith) hseg.le)]
  exact div_mul_cancel₀ _ (ne_of_gt hseg)

theorem abs_interpRaw_sub_right (route : List (Pt ℝ)) (s : ℕ) (d : ℝ)
    (hs : s + 1 < route.length)
    (hlt : (cumLen hypR route).getD s 0 < d)
    (hle : d ≤ (cumLen hypR route).getD (s + 1) 0) :
    Complex.abs (toC (route.getD (s + 1) (0, 0)) -
        toC (interpRaw route (cumLen hypR route) s d)) =
      (cumLen hypR route).getD (s + 1) 0 - d := by
  have hseg : 0 < (cumLen hypR route).getD (s + 1) 0 -
      (cumLen hypR route).getD s 0 := by linarith
  rw [toC_interpRaw_sub_right route _ s d hseg, map_mul, Complex.abs_ofReal,
    abs_segment route s hs, abs_of_nonneg (div_nonneg (by linarith) hseg.le)]
  exact div_mul_cancel₀ _ (ne_of_gt hseg)

theorem abs_interpRaw_sub_vertex (route : List (Pt ℝ)) (s : ℕ) (d : ℝ)
    (hs : s + 1 < route.length)
    (hlt : (cumLen hypR route).getD s 0 < d)
    (hle : d ≤ (cumLen hypR route).getD (s + 1) 0) :
    ∀ (m j : ℕ), j + m = s →
      Complex.abs (toC (interpRaw route (cumLen hypR route) s d) -
          toC (route.getD j (0, 0))) ≤ d - (cumLen hypR route).getD j 0 := by
  intro m
  induction m with
  | zero =>
    intro j hj
    have hjs : j = s := by omega
    subst hjs
    rw [abs_interpRaw_sub_left route j d hs hlt hle]
  | succ m ih =>
    intro j hj
    have hlen : j + 1 < route.length := by omega
    have tri := (Complex.abs).sub_le
      (toC (interpRaw route (cumLen hypR route) s d))
      (toC (route.getD (j + 1) (0, 0))) (toC (route.getD j (0, 0)))
    have h1 := ih (j + 1) (by omega)
    have h2 := abs_segment route j hlen
    linarith

theorem abs_interpRaw_chord (route : List (Pt ℝ)) (s1 s2 : ℕ) (d1 d2 : ℝ)
    (hs2 : s2 + 1 < route.length) (hss : s1 ≤ s2) (hd : d1 ≤ d2)
    (h1lt : (cumLen hypR route).getD s1 0 < d1)
    (h1le : d1 ≤ (cumLen hypR route).getD (s1 + 1) 0)
    (h2lt : (cumLen hypR route).getD s2 0 < d2)
    (h2le : d2 ≤ (cumLen hypR route).getD (s2 + 1) 0) :
    Complex.abs (toC (interpRaw route (cumLen hypR route) s2 d2) -
        toC (interpRaw route (cumLen hypR route) s1 d1)) ≤ d2 - d1 := by
  rcases eq_or_lt_of_le hss with heq | hlt2
  · subst heq
    have hseg : 0 < (cumLen hypR route).getD (s1 + 1) 0 -
        (cumLen hypR route).getD s1 0 := by linarith
    have e2 := toC_interpRaw_sub_left route (cumLen hypR route) s1 d2 hseg
    have e1 := toC_interpRaw_sub_left route (cumLen hypR route) s1 d1 hseg
    have key : toC (interpRaw route (cumLen hypR route) s1 d2) -
        toC (interpRaw route (cumLen hypR route) s1 d1) =
        (((d2 - d1) / ((cumLen hypR route).getD (s1 + 1) 0 -
            (cumLen hypR route).getD s1 0) : ℝ) : ℂ) *
          (toC (route.getD (s1 + 1) (0, 0)) - toC (route.getD s1 (0, 0))) := by
      have hsplit : toC (interpRaw route (cumLen hypR route) s1 d2) -
          toC (interpRaw route (cumLen hypR route) s1 d1) =
          (toC (interpRaw route (cumLen hypR route) s1 d2) -
            toC (route.getD s1 (0, 0))) -
          (toC (interpRaw route (cumLen hypR route) s1 d1) -
            toC (route.getD s1 (0, 0))) := by ring
      have harg : (d2 - (cumLen hypR route).getD s1 0) -
          (d1 - (cumLen hypR route).getD s1 0) = d2 - d1 := by ring
      rw [hsplit, e2, e1, ← sub_mul, ← Complex.ofReal_sub, div_sub_div_same,
        harg]
    rw [key, map_mul, Complex.abs_ofReal, abs_segment route s1 hs2,
      abs_of_nonneg (div_nonneg (by linarith) hseg.le),
      div_mul_cancel₀ _ (ne_of_gt hseg)]
  · have tri := (Complex.abs).sub_le
      (toC (interpRaw route (cumLen hypR route) s2 d2))
      (toC (route.getD (s1 + 1) (0, 0)))
      (toC (interpRaw route (cumLen hypR route) s1 d1))
    have hs1len : s1 + 1 < route.length := by omega
    have hA := abs_interpRaw_sub_vertex route s2 d2 hs2 h2lt h2le
      (s2 - (s1 + 1)) (s1 + 1) (by omega)
    have hB := abs_interpRaw_sub_right route s1 d1 hs1len h1lt h1le
    linarith

theorem abs_round10_sub (v : ℝ) : |round10 v - v| ≤ 1 / 20 := by
  have h := abs_sub_round (v * 10)
  have h10 : |(10 : ℝ)| = 10 := by norm_num
  rw [round10, show ((round (v * 10) : ℝ)) / 10 - v =
    ((round (v * 10) : ℝ) - v * 10) / 10 from by ring, abs_div, h10,
    abs_sub_comm]
  linarith

theorem abs_toC_roundPt_sub (p : Pt ℝ) :
    Complex.abs (toC (roundPt p) - toC p) ≤ 3 / 40 := by
  have hx := abs_round10_sub p.1
  have hz := abs_round10_sub p.2
  rw [Complex.abs_apply, Complex.normSq_apply]
  have hre : (toC (roundPt p) - toC p).re = round10 p.1 - p.1 := by
    simp [toC, roundPt, Complex.sub_re]
  have him : (toC (roundPt p) - toC p).im = round10 p.2 - p.2 := by
    simp [toC, roundPt, Complex.sub_im]
  rw [hre, him]
  have hb : (round10 p.1 - p.1) * (round10 p.1 - p.1) +
      (round10 p.2 - p.2) * (round10 p.2 - p.2) ≤ 9 / 1600 := by
    nlinarith [abs_nonneg (round10 p.1 - p.1), abs_nonneg (round10 p.2 - p.2),
      abs_mul_abs_self (round10 p.1 - p.1), abs_mul_abs_self (round10 p.2 - p.2)]
  calc Real.sqrt ((round10 p.1 - p.1) * (round10 p.1 - p.1) +
        (round10 p.2 - p.2) * (round10 p.2 - p.2))
      ≤ Real.sqrt (9 / 1600) := Real.sqrt_le_sqrt hb
    _ = 3 / 40 := by
        rw [show (9 / 1600 : ℝ) = (3 / 40) ^ 2 from by norm_num,
          Real.sqrt_sq (by norm_num : (0:ℝ) ≤ 3 / 40)]

theorem interpPoint_pair_bound (route : List (Pt ℝ)) (s1 s2 : ℕ) (d1 d2 : ℝ)
    (hs2 : s2 + 1 < route.length) (hss : s1 ≤ s2) (hd : d1 ≤ d2)
    (h1lt : (cumLen hypR route).getD s1 0 < d1)
    (h1le : d1 ≤ (cumLen hypR route).getD (s1 + 1) 0)
    (h2lt : (cumLen hypR route).getD s2 0 < d2)
    (h2le : d2 ≤ (cumLen hypR route).getD (s2 + 1) 0) :
    dist2d hypR (interpPoint route (cumLen hypR route) s1 d1)
      (interpPoint route (cumLen hypR route) s2 d2) ≤ (d2 - d1) + 3 / 20 := by
  rw [dist2d_hypR, interpPoint_eq_roundPt, interpPoint_eq_roundPt]
  have tri1 := (Complex.abs).sub_le
    (toC (roundPt (interpRaw route (cumLen hypR route) s1 d1)))
    (toC (interpRaw route (cumLen hypR route) s1 d1))
    (toC (roundPt (interpRaw route (cumLen hypR route) s2 d2)))
  have tri2 := (Complex.abs).sub_le
    (toC (interpRaw route (cumLen hypR route) s1 d1))
    (toC (interpRaw route (cumLen hypR route) s2 d2))
    (toC (roundPt (interpRaw route (cumLen hypR route) s2 d2)))
  have r1 := abs_toC_roundPt_sub (interpRaw route (cumLen hypR route) s1 d1)
  have r2 := abs_toC_roundPt_sub (interpRaw route (cumLen hypR route) s2 d2)
  have hchord := abs_interpRaw_chord route s1 s2 d1 d2 hs2 hss hd
    h1lt h1le h2lt h2le
  have e1 : Complex.abs (toC (interpRaw route (cumLen hypR route) s1 d1) -
      toC (interpRaw route (cumLen hypR route) s2 d2)) =
      Complex.abs (toC (interpRaw route (cumLen hypR route) s2 d2) -
        toC (interpRaw route (cumLen hypR route) s1 d1)) :=
    (Complex.abs).map_sub _ _
  have e2 : Complex.abs (toC (interpRaw route (cumLen hypR route) s2 d2) -
      toC (roundPt (interpRaw route (cumLen hypR route) s2 d2))) =
      Complex.abs (toC (roundPt (interpRaw route (cumLen hypR route) s2 d2)) -
        toC (interpRaw route (cumLen hypR route) s2 d2)) :=
    (Complex.abs).map_sub _ _
  linarith

theorem interpPoint_from_start (route : List (Pt ℝ)) (s : ℕ) (d : ℝ)
    (hs : s + 1 < route.length)
    (hlt : (cumLen hypR route).getD s 0 < d)
    (hle : d ≤ (cumLen hypR route).getD (s + 1) 0) :
    dist2d hypR (route.getD 0 (0, 0))
      (interpPoint route (cumLen hypR route) s d) ≤ d + 3 / 40 := by
  rw [dist2d_hypR, interpPoint_eq_roundPt]
  have tri := (Complex.abs).sub_le (toC (route.getD 0 (0, 0)))
    (toC (interpRaw route (cumLen hypR route) s d))
    (toC (roundPt (interpRaw route (cumLen hypR route) s d)))
  have hA := abs_interpRaw_sub_vertex route s d hs hlt hle s 0 (by omega)
  have hA2 : Complex.abs (toC (route.getD 0 (0, 0)) -
      toC (interpRaw route (cumLen hypR route) s d)) =
      Complex.abs (toC (interpRaw route (cumLen hypR route) s d) -
        toC (route.getD 0 (0, 0))) := (Complex.abs).map_sub _ _
  have hr := abs_toC_roundPt_sub (interpRaw route (cumLen hypR route) s d)
  have hr2 : Complex.abs (toC (interpRaw route (cumLen hypR route) s d) -
      toC (roundPt (interpRaw route (cumLen hypR route) s d))) =
      Complex.abs (toC (roundPt (interpRaw route (cumLen hypR route) s d)) -
        toC (interpRaw route (cumLen hypR route) s d)) :=
    (Complex.abs).map_sub _ _
  have h0 : (cumLen hypR route).getD 0 0 = 0 := cumLen_getD_zero hypR route
  linarith

theorem sampleLoopGo_chain (route : List (Pt ℝ)) (h2 : 2 ≤ route.length) :
    ∀ (fuel : ℕ) (dist : ℝ) (segIdx : ℕ) (prev : Pt ℝ),
      (cumLen hypR route).getD segIdx 0 < dist →
      segIdx ≤ route.length - 2 →
      (∀ s : ℕ, (cumLen hypR route).getD s 0 < dist →
          dist ≤ (cumLen hypR route).getD (s + 1) 0 →
          s ≤ route.length - 2 →
          dist2d hypR prev (interpPoint route (cumLen hypR route) s dist) ≤
            25 + 3 / 20) →
      List.Chain' (fun p q => dist2d hypR p q ≤ 25 + 3 / 20)
        (prev :: sampleLoopGo route (cumLen hypR route)
          ((cumLen hypR route).getD (route.length - 1) 0) fuel dist segIdx) := by
  intro fuel
  induction fuel with
  | zero =>
    intro dist segIdx prev _ _ _
    simp [sampleLoopGo]
  | succ fuel ih =>
    intro dist segIdx prev hinv1 hinv2 hprev
    rw [sampleLoopGo]
    by_cases hdT : dist < (cumLen hypR route).getD (route.length - 1) 0
    · rw [if_pos hdT]
      have hbr := advanceSeg_bracket (cumLen hypR route) route.length dist
        h2 hdT route.length segIdx hinv1 hinv2 (by omega)
      rw [List.chain'_cons]
      refine ⟨hprev _ hbr.1 hbr.2.1 hbr.2.2, ?_⟩
      apply ih (dist + 25)
        (advanceSeg (cumLen hypR route) route.length dist route.length segIdx)
        (interpPoint route (cumLen hypR route)
          (advanceSeg (cumLen hypR route) route.length dist route.length segIdx)
          dist)
      · linarith [hbr.1]
      · exact hbr.2.2
      · intro s2 hlt2 hle2 hs2le
        have hs2 : s2 + 1 < route.length := by omega
        have hss : advanceSeg (cumLen hypR route) route.length dist
            route.length segIdx ≤ s2 := by
          by_contra hcon
          push_neg at hcon
          have hm := cumLen_mono route (s2 + 1)
            (advanceSeg (cumLen hypR route) route.length dist route.length segIdx)
            (by omega) (by omega)
          linarith [hbr.1]
        have hpb := interpPoint_pair_bound route
          (advanceSeg (cumLen hypR route) route.length dist route.length segIdx)
          s2 dist (dist + 25) hs2 hss (by linarith)
          hbr.1 hbr.2.1 hlt2 hle2
        linarith
    · rw [if_neg hdT]
      simp

theorem chain'_getD_of_lt {α : Type} (R : α → α → Prop) (l : List α) (d : α)
    (hc : List.Chain' R l) (i : ℕ) (h : i + 1 < l.length) :
    R (l.getD i d) (l.getD (i + 1) d) := by
  have e1 : l.getD i d = l.get ⟨i, by omega⟩ := by
    rw [List.getD_eq_getElem?_getD, List.getElem?_eq_getElem (by omega)]
    rfl
  have e2 : l.getD (i + 1) d = l.get ⟨i + 1, h⟩ := by
    rw [List.getD_eq_getElem?_getD, List.getElem?_eq_getElem h]
    rfl
  rw [e1, e2]
  exact List.chain'_iff_get.mp hc i (by omega)

theorem getD_append_left_of_lt {α : Type} (l l2 : List α) (n : ℕ) (d : α)
    (h : n < l.length) : (l ++ l2).getD n d = l.getD n d := by
  rw [List.getD_eq_getElem?_getD, List.getD_eq_getElem?_getD,
    List.getElem?_append_left h]

/-- **C1.**  After the arc-length resampling stage, every pair of consecutive
points of the resampled polyline except possibly the final pair (the segment
ending at the appended original last point) lies at planar Euclidean distance
at most the 25-unit sample interval plus the effect of the 0.1-unit
coordinate rounding of each emitted point (each rounding moves a point by at
most `√2/20 ≤ 3/40`, so two rounded endpoints add at most `3/20`). -/
theorem resample_gap_le (route : List (Pt ℝ)) (i : ℕ)
    (h : i + 2 < (resample hypR route).length) :
    dist2d hypR ((resample hypR route).getD i (0, 0))
      ((resample hypR route).getD (i + 1) (0, 0)) ≤ 25 + 3 / 20 := by
  cases route with
  | nil => simp [resample] at h
  | cons p0 rest =>
    by_cases hn : 2 ≤ (p0 :: rest).length
    · have hbody : List.Chain' (fun p q => dist2d hypR p q ≤ 25 + 3 / 20)
          (p0 :: sampleLoopGo (p0 :: rest) (cumLen hypR (p0 :: rest))
            ((cumLen hypR (p0 :: rest)).getLast?.getD 0)
            (Int.toNat
              ⌈((cumLen hypR (p0 :: rest)).getLast?.getD 0) / 25⌉ + 1) 25 0) := by
        have hTeq : (cumLen hypR (p0 :: rest)).getLast?.getD 0 =
            (cumLen hypR (p0 :: rest)).getD ((p0 :: rest).length - 1) 0 := by
          rw [getLastD_eq_getD, cumLen_length]
        rw [hTeq]
        apply sampleLoopGo_chain (p0 :: rest) hn _ 25 0 p0
        · rw [cumLen_getD_zero]; norm_num
        · omega
        · intro s hlt hle hsle
          have hs : s + 1 < (p0 :: rest).length := by
            simp only [List.length_cons] at hn hsle ⊢
            omega
          have hst := interpPoint_from_start (p0 :: rest) s 25 hs hlt hle
          rw [List.getD_cons_zero] at hst
          linarith
      simp only [resample] at h ⊢
      set L := p0 :: sampleLoopGo (p0 :: rest) (cumLen hypR (p0 :: rest))
          ((cumLen hypR (p0 :: rest)).getLast?.getD 0)
          (Int.toNat
            ⌈((cumLen hypR (p0 :: rest)).getLast?.getD 0) / 25⌉ + 1) 25 0 with hL
      by_cases hc : 1 < dist2d hypR ((p0 :: rest).getLast?.getD (0, 0))
          (L.getLast?.getD (0, 0))
      · rw [if_pos hc] at h ⊢
        have hlen : i + 1 < L.length := by
          simp only [List.length_append, List.length_cons, List.length_nil] at h
          omega
        rw [getD_append_left_of_lt L _ i _ (by omega),
          getD_append_left_of_lt L _ (i + 1) _ hlen]
        exact chain'_getD_of_lt _ L (0, 0) hbody i hlen
      · rw [if_neg hc] at h ⊢
        exact chain'_getD_of_lt _ L (0, 0) hbody i (by omega)
    · exfalso
      have hrest : rest = [] := by
        cases rest with
        | nil => rfl
        | cons a t => simp at hn
      subst hrest
      have hT : (cumLen hypR [p0]).getLast?.getD 0 = 0 := rfl
      have hcond : ¬ ((25 : ℝ) < (cumLen hypR [p0]).getLast?.getD 0) := by
        rw [hT]; norm_num
      have hloop : sampleLoopGo [p0] (cumLen hypR [p0])
          ((cumLen hypR [p0]).getLast?.getD 0)
          (Int.toNat ⌈((cumLen hypR [p0]).getLast?.getD 0) / 25⌉ + 1) 25 0 = [] := by
        rw [sampleLoopGo, if_neg hcond]
      simp only [resample] at h
      rw [hloop] at h
      split at h <;>
        simp only [List.length_append, List.length_cons, List.length_nil] at h <;>
        omega

theorem resample_example :
    resample hypR [((0 : ℝ), 0), (30, 0)] = [(0, 0), (25, 0), (30, 0)] := by
  have hcum : cumLen hypR [((0 : ℝ), 0), (30, 0)] = [0, 30] := by
    simp only [cumLen, cumLenGo, dist2d]
    norm_num
  have hadv : advanceSeg [(0 : ℝ), 30] 2 25 2 0 = 0 := by
    rw [advanceSeg, if_neg]
    intro hcon
    exact absurd hcon.1 (by norm_num)
  have hinterpRaw : interpRaw [((0 : ℝ), 0), (30, 0)] [0, 30] 0 25 = (25, 0) := by
    simp only [interpRaw, List.getD_cons_zero, List.getD_cons_succ]
    norm_num
  have hinterp : interpPoint [((0 : ℝ), 0), (30, 0)] [0, 30] 0 25 = (25, 0) := by
    rw [interpPoint_eq_roundPt, hinterpRaw, roundPt]
    have h250 : round ((25 : ℝ) * 10) = 250 := by
      rw [show ((25 : ℝ) * 10) = ((250 : ℤ) : ℝ) from by norm_num, round_intCast]
    simp only [round10]
    rw [h250]
    norm_num
  have hloop2 : sampleLoopGo [((0 : ℝ), 0), (30, 0)] [0, 30] 30 2 50 0 = [] := by
    rw [sampleLoopGo, if_neg (by norm_num : ¬ ((50 : ℝ) < 30))]
  have hloop : sampleLoopGo [((0 : ℝ), 0), (30, 0)] [0, 30] 30 3 25 0 = [(25, 0)] := by
    rw [sampleLoopGo, if_pos (by norm_num : (25 : ℝ) < 30),
      show ([((0 : ℝ), 0), (30, 0)] : List (Pt ℝ)).length = 2 from rfl,
      hadv, hinterp, show (25 : ℝ) + 25 = 50 from by norm_num, hloop2]
  have hfuel : Int.toNat ⌈(30 : ℝ) / 25⌉ + 1 = 3 := by
    rw [show ⌈(30 : ℝ) / 25⌉ = 2 from by rw [Int.ceil_eq_iff]; norm_num]
    rfl
  simp only [resample]
  rw [hcum, show (([0, (30 : ℝ)] : List ℝ).getLast?.getD 0) = 30 from rfl,
    hfuel, hloop,
    show (([((0 : ℝ), 0), (30, 0)] : List (Pt ℝ)).getLast?.getD (0, 0)) = (30, 0)
      from rfl,
    show ((((0 : ℝ), 0) :: [((25 : ℝ), 0)] : List (Pt ℝ)).getLast?.getD (0, 0)) =
      (25, 0) from rfl]
  rw [if_pos]
  · rfl
  · show (1 : ℝ) < hypR ((30 : ℝ) - 25) ((0 : ℝ) - 0)
    rw [show ((30 : ℝ) - 25) = 5 from by norm_num,
      show ((0 : ℝ) - 0) = 0 from by norm_num, hypR_right_zero]
    norm_num

theorem resample_gap_le_witness :
    0 + 2 < (resample hypR [((0 : ℝ), 0), (30, 0)]).length ∧
    dist2d hypR ((resample hypR [((0 : ℝ), 0), (30, 0)]).getD 0 (0, 0))
      ((resample hypR [((0 : ℝ), 0), (30, 0)]).getD (0 + 1) (0, 0)) ≤
        25 + 3 / 20 :=
  ⟨by rw [resample_example]; norm_num,
   resample_gap_le [((0 : ℝ), 0), (30, 0)] 0 (by rw [resample_example]; norm_num)⟩

/-! ### Unreachable waypoint pairs during route stitching (C6) -/

/-- The stitching loop of `buildRoute` (lines 277–305): each entry of
`results` is the Dijkstra result for one consecutive waypoint pair (`none`
when no path exists).  A `none` is logged as an error (counted here as the
loop's observable error report) and the loop continues with the next pair;
a path is appended to the accumulated node list, dropping its first node
when it duplicates the current tail
(`fullNodePath.length > 0 && path[0] === fullNodePath[fullNodePath.length - 1]`). -/
def stitchGo : List ℕ → ℕ → List (Option (List ℕ)) → List ℕ × ℕ
  | acc, errs, [] => (acc, errs)
  | acc, errs, none :: rest => stitchGo acc (errs + 1) rest
  | acc, errs, some p :: rest =>
    let start := if acc ≠ [] ∧ p.head? = acc.getLast? then 1 else 0
    stitchGo (acc ++ p.drop start) errs rest

/-- `buildRoute`'s `fullNodePath` and error-report count, as a function of the
per-pair Dijkstra outcomes. -/
def stitch (results : List (Option (List ℕ))) : List ℕ × ℕ :=
  stitchGo [] 0 results

theorem stitchGo_errs (results : List (Option (List ℕ))) :
    ∀ (acc : List ℕ) (errs : ℕ),
      (stitchGo acc errs results).2 = errs + results.countP (fun r => r.isNone) := by
  induction results with
  | nil => intro acc errs; simp [stitchGo]
  | cons r rest ih =>
    intro acc errs
    match r with
    | none =>
      rw [stitchGo, ih]
      simp [List.countP_cons]
      omega
    | some p =>
      rw [stitchGo]
      rw [ih]
      simp [List.countP_cons]

theorem stitchGo_all_none (results : List (Option (List ℕ))) :
    ∀ (acc : List ℕ) (errs : ℕ), (∀ r ∈ results, r = none) →
      (stitchGo acc errs results).1 = acc := by
  induction results with
  | nil => intro acc errs _; simp [stitchGo]
  | cons r rest ih =>
    intro acc errs hall
    have hr : r = none := hall r (by simp)
    subst hr
    rw [stitchGo]
    exact ih acc (errs + 1) fun x hx => hall x (by simp [hx])

/-- **C6 (amended).**  A waypoint pair with no connecting path is skipped,
not fatal to the stitching loop: it contributes no nodes, adds one to the
error-report count (which equals the number of unreachable pairs), and the
loop continues with the remaining pairs; when every pair is unreachable the
assembled node path is empty.  However, the run emits an artifact only when
the assembled route then passes the 10-point minimum gate: `isSome` of the
pipeline tail forces at least 10 route points, so a run whose reachable
pairs yield too few nodes still terminates without an artifact. -/
theorem unreachable_pair_nonfatal :
    (∀ (acc : List ℕ) (errs : ℕ) (rest : List (Option (List ℕ))),
        stitchGo acc errs (none :: rest) = stitchGo acc (errs + 1) rest) ∧
    (∀ results : List (Option (List ℕ)),
        (stitch results).2 = results.countP (fun r => r.isNone)) ∧
    (∀ results : List (Option (List ℕ)), (∀ r ∈ results, r = none) →
        (stitch results).1 = []) ∧
    (∀ (gameRoute : List (Pt ℝ)) (gameStops : List (GameStop ℝ))
        (labels : List String),
        (mainFromRoute hypR gameRoute gameStops labels).isSome →
        10 ≤ gameRoute.length) := by
  refine ⟨fun acc errs rest => rfl, fun results => ?_, ?_, ?_⟩
  · rw [stitch, stitchGo_errs]
    omega
  · intro results hall
    exact stitchGo_all_none results [] 0 hall
  · intro gameRoute gameStops labels hsome
    by_contra hlt
    rw [mainFromRoute, if_pos (by omega)] at hsome
    simp at hsome

/-- **C6 (counterexample to the original claim).**  A run with one reachable
pair (3 nodes) and one unreachable pair: the stitching loop reports one
error and keeps the 3 reachable nodes, but the downstream pipeline emits no
artifact — the 3-point route fails the 10-point minimum and the run exits
before `writeRouteData`, contradicting "the run still emits an artifact
built from the reachable pairs". -/
theorem unreachable_pair_still_emits_counterexample :
    stitch [some [1, 2, 3], none] = ([1, 2, 3], 1) ∧
    mainFromRoute hypR [(0, 0), (1, 0), (2, 0)] [] [] = none := by
  constructor
  · rfl
  · rfl

/-! ### Graph construction and Dijkstra search (C3)

`buildGraph` builds a bidirectional adjacency map keyed by OSM node id; the
haversine edge weight is abstracted as a function `hav` of the two node ids
(the script computes it from the two node positions, using the same value for
both directions of an edge).  `dijkstra` is the script's array-backed
priority-queue search; the loop and the path reconstruction are modelled with
a fuel argument and return `none` when the fuel is exhausted mid-loop, so a
`some` result always corresponds to a completed run of the script's loop. -/

/-- One adjacency entry `\x7b to, dist, name \x7d` (from `addEdge`); the `to`
field is called `dest` here (`to` is reserved in Lean). -/
structure Edge (K : Type) where
  dest : ℕ
  dist : K
  name : Option String
deriving Repr

/-- First-match lookup in an association list, the model of `Map.get`
(entries are prepended on update, so the first match is the newest). -/
def mapGet {α : Type} (m : List (ℕ × α)) (k : ℕ) : Option α :=
  match m.find? (fun e => e.1 == k) with
  | none => none
  | some e => some e.2

/-- `adj.get(u) ?? []`: the edge list of a node. -/
def edgesOf {K : Type} (adj : List (ℕ × List (Edge K))) (u : ℕ) :
    List (Edge K) :=
  (mapGet adj u).getD []

/-- An edge from `u` to `v` of weight `w` is present in the adjacency map. -/
def edgeW {K : Type} (adj : List (ℕ × List (Edge K))) (u v : ℕ) (w : K) :
    Prop :=
  ∃ e ∈ edgesOf adj u, e.dest = v ∧ e.dist = w

/-- An edge from `u` to `v` (of some weight) is present. -/
def hasEdge {K : Type} (adj : List (ℕ × List (Edge K))) (u v : ℕ) : Prop :=
  ∃ e ∈ edgesOf adj u, e.dest = v

/-- `addEdge(from, to, dist, name)`: append to the node's edge array,
creating it first when absent. -/
def addEdge {K : Type} (adj : List (ℕ × List (Edge K))) (a b : ℕ) (d : K)
    (name : Option String) : List (ℕ × List (Edge K)) :=
  match mapGet adj a with
  | none => (a, [⟨b, d, name⟩]) :: adj
  | some es => (a, es ++ [⟨b, d, name⟩]) :: adj

/-- The inner loop of `buildGraph` over one way: for each consecutive node
pair both known to the node table, add both directed edges with the same
haversine weight. -/
def buildWay {K : Type} (known : ℕ → Bool) (hav : ℕ → ℕ → K)
    (name : Option String) :
    List ℕ → List (ℕ × List (Edge K)) → List (ℕ × List (Edge K))
  | a :: b :: rest, adj =>
    let adj2 := if known a && known b then
      addEdge (addEdge adj a b (hav a b) name) b a (hav a b) name
    else adj
    buildWay known hav name (b :: rest) adj2
  | _, adj => adj

/-- `buildGraph`: fold the ways into the adjacency map. -/
def buildGraph {K : Type} (known : ℕ → Bool) (hav : ℕ → ℕ → K)
    (ways : List (List ℕ × Option String)) : List (ℕ × List (Edge K)) :=
  ways.foldl (fun adj w => buildWay known hav w.2 w.1 adj) []

/-- Reachability with total weight, extending paths by one edge at the end
(`refl` is the empty path). -/
inductive PathW {K : Type} [LinearOrderedField K]
    (adj : List (ℕ × List (Edge K))) : ℕ → ℕ → K → Prop
  | refl (u : ℕ) : PathW adj u u 0
  | step {u v x : ℕ} {c w : K} (hp : PathW adj u v c) (he : edgeW adj v x w) :
      PathW adj u x (c + w)

/-- A concrete node list is an edge path of total weight `c`. -/
inductive PathOn {K : Type} [LinearOrderedField K]
    (adj : List (ℕ × List (Edge K))) : List ℕ → K → Prop
  | single (u : ℕ) : PathOn adj [u] 0
  | cons {u v : ℕ} {rest : List ℕ} {c w : K} (he : edgeW adj u v w)
      (hp : PathOn adj (v :: rest) c) : PathOn adj (u :: v :: rest) (c + w)

/-- The linear scan `for (i = 1; …) if (pq[i].d < pq[minIdx].d) minIdx = i`,
tracking the best entry alongside its index. -/
def extractScan {K : Type} [LinearOrderedField K] :
    List (ℕ × K) → ℕ → (ℕ × K) → ℕ → ℕ × (ℕ × K)
  | [], _, bestE, bestI => (bestI, bestE)
  | e :: rest, i, bestE, bestI =>
    if e.2 < bestE.2 then extractScan rest (i + 1) e i
    else extractScan rest (i + 1) bestE bestI

/-- The relaxation loop over the extracted node's edges: skip visited
targets, and on improvement set `dist`, set `prev` and push to the queue. -/
def relaxEdges {K : Type} [LinearOrderedField K] (vis : List ℕ) (u : ℕ)
    (du : K) :
    List (Edge K) → List (ℕ × K) → List (ℕ × ℕ) → List (ℕ × K) →
      List (ℕ × K) × List (ℕ × ℕ) × List (ℕ × K)
  | [], d, p, pq => (d, p, pq)
  | e :: es, d, p, pq =>
    if vis.contains e.dest then relaxEdges vis u du es d p pq
    else
      if (match mapGet d e.dest with
          | none => true
          | some dv => decide (du + e.dist < dv)) = true then
        relaxEdges vis u du es ((e.dest, du + e.dist) :: d) ((e.dest, u) :: p)
          (pq ++ [(e.dest, du + e.dist)])
      else relaxEdges vis u du es d p pq

/-- The main Dijkstra loop.  State: distance map, predecessor map, visited
list, priority queue.  `none` only on fuel exhaustion with a nonempty queue
(the script's loop always terminates, so a completed run is a `some`). -/
def dloop {K : Type} [LinearOrderedField K]
    (adj : List (ℕ × List (Edge K))) (endId : ℕ) :
    ℕ → List (ℕ × K) → List (ℕ × ℕ) → List ℕ → List (ℕ × K) →
      Option (List (ℕ × K) × List (ℕ × ℕ) × List ℕ × List (ℕ × K))
  | 0, d, p, vis, pq =>
    match pq with
    | [] => some (d, p, vis, [])
    | _ :: _ => none
  | fuel + 1, d, p, vis, pq =>
    match pq with
    | [] => some (d, p, vis, [])
    | e :: rest =>
      let sc := extractScan rest 1 e 0
      let pq2 := (e :: rest).eraseIdx sc.1
      if vis.contains sc.2.1 then dloop adj endId fuel d p vis pq2
      else
        let vis2 := sc.2.1 :: vis
        if sc.2.1 = endId then some (d, p, vis2, pq2)
        else
          let r := relaxEdges vis2 sc.2.1 sc.2.2 (edgesOf adj sc.2.1) d p pq2
          dloop adj endId fuel r.1 r.2.1 vis2 r.2.2

/-- Path reconstruction: follow `prev` from the end node, prepending; stop
at a node with no predecessor.  The fuel (`prev.length + 1` at the call
site) dominates the length of the acyclic predecessor chain. -/
def rebuild (p : List (ℕ × ℕ)) : ℕ → ℕ → List ℕ → Option (List ℕ)
  | 0, _, _ => none
  | fuel + 1, cur, acc =>
    match mapGet p cur with
    | none => some (cur :: acc)
    | some pr => rebuild p fuel pr (cur :: acc)

/-- `dijkstra(adj, startId, endId)`: run the loop from
`dist = {start: 0}, pq = [{start, 0}]`, return `null` when the end has no
predecessor and differs from the start, else reconstruct. -/
def dijkstra {K : Type} [LinearOrderedField K]
    (adj : List (ℕ × List (Edge K))) (startId endId fuel : ℕ) :
    Option (List ℕ) :=
  match dloop adj endId fuel [(startId, 0)] [] [] [(startId, 0)] with
  | none => none
  | some (_d, p, _vis, _pq) =>
    if (mapGet p endId).isNone ∧ startId ≠ endId then none
    else rebuild p (p.length + 1) endId []

theorem mapGet_cons {α : Type} (k : ℕ) (v : α) (m : List (ℕ × α)) (k2 : ℕ) :
    mapGet ((k, v) :: m) k2 = if k2 = k then some v else mapGet m k2 := by
  by_cases h : k2 = k
  · subst h
    simp [mapGet]
  · rw [mapGet, List.find?_cons_of_neg, ← mapGet]
    · rw [if_neg h]
    · simp
      exact fun hc => absurd hc.symm h

theorem mem_eraseIdx_of_ne {α : Type} :
    ∀ (l : List α) (i : ℕ) (x : α), x ∈ l → l[i]? ≠ some x →
      x ∈ l.eraseIdx i := by
  intro l
  induction l with
  | nil => intro i x hx; simp at hx
  | cons a t ih =>
    intro i x hx hne
    match i with
    | 0 =>
      simp only [List.eraseIdx_cons_zero]
      rcases List.mem_cons.mp hx with h | h
      · exact absurd (by rw [h]; simp) hne
      · exact h
    | i + 1 =>
      simp only [List.eraseIdx_cons_succ]
      rcases List.mem_cons.mp hx with h | h
      · exact List.mem_cons.mpr (Or.inl h)
      · exact List.mem_cons.mpr (Or.inr (ih i x h (by simpa using hne)))

theorem mem_of_mem_eraseIdx {α : Type} :
    ∀ (l : List α) (i : ℕ) (x : α), x ∈ l.eraseIdx i → x ∈ l := by
  intro l
  induction l with
  | nil => intro i x hx; simp [List.eraseIdx] at hx
  | cons a t ih =>
    intro i x hx
    match i with
    | 0 =>
      simp only [List.eraseIdx_cons_zero] at hx
      exact List.mem_cons.mpr (Or.inr hx)
    | i + 1 =>
      simp only [List.eraseIdx_cons_succ] at hx
      rcases List.mem_cons.mp hx with h | h
      · exact List.mem_cons.mpr (Or.inl h)
      · exact List.mem_cons.mpr (Or.inr (ih i x h))

theorem extractScan_min {K : Type} [LinearOrderedField K] :
    ∀ (rest : List (ℕ × K)) (i : ℕ) (bestE : ℕ × K) (bestI : ℕ),
      (extractScan rest i bestE bestI).2.2 ≤ bestE.2 ∧
      ∀ x ∈ rest, (extractScan rest i bestE bestI).2.2 ≤ x.2 := by
  intro rest
  induction rest with
  | nil => intro i bestE bestI; exact ⟨le_refl _, by simp⟩
  | cons e2 rest2 ih =>
    intro i bestE bestI
    rw [extractScan]
    by_cases hc : e2.2 < bestE.2
    · rw [if_pos hc]
      have h := ih (i + 1) e2 i
      exact ⟨h.1.trans hc.le, fun x hx => by
        rcases List.mem_cons.mp hx with h2 | h2
        · rw [h2]; exact h.1
        · exact h.2 x h2⟩
    · rw [if_neg hc]
      have h := ih (i + 1) bestE bestI
      exact ⟨h.1, fun x hx => by
        rcases List.mem_cons.mp hx with h2 | h2
        · rw [h2]; exact h.1.trans (not_lt.mp hc)
        · exact h.2 x h2⟩

theorem extractScan_mem {K : Type} [LinearOrderedField K] :
    ∀ (rest : List (ℕ × K)) (i : ℕ) (bestE : ℕ × K) (bestI : ℕ),
      (extractScan rest i bestE bestI).2 = bestE ∨
      (extractScan rest i bestE bestI).2 ∈ rest := by
  intro rest
  induction rest with
  | nil => intro i bestE bestI; exact Or.inl rfl
  | cons e2 rest2 ih =>
    intro i bestE bestI
    rw [extractScan]
    by_cases hc : e2.2 < bestE.2
    · rw [if_pos hc]
      rcases ih (i + 1) e2 i with h | h
      · exact Or.inr (List.mem_cons.mpr (Or.inl h))
      · exact Or.inr (List.mem_cons.mpr (Or.inr h))
    · rw [if_neg hc]
      rcases ih (i + 1) bestE bestI with h | h
      · exact Or.inl h
      · exact Or.inr (List.mem_cons.mpr (Or.inr h))

theorem extractScan_getElem {K : Type} [LinearOrderedField K]
    (pq : List (ℕ × K)) :
    ∀ (rest : List (ℕ × K)) (i : ℕ) (bestE : ℕ × K) (bestI : ℕ),
      pq[bestI]? = some bestE →
      (∀ j : ℕ, rest[j]? = pq[i + j]?) →
      pq[(extractScan rest i bestE bestI).1]? =
        some (extractScan rest i bestE bestI).2 := by
  intro rest
  induction rest with
  | nil => intro i bestE bestI hb _; exact hb
  | cons e2 rest2 ih =>
    intro i bestE bestI hb hrest
    rw [extractScan]
    have he2 : pq[i]? = some e2 := by
      have := hrest 0
      simpa using this.symm
    have hrest2 : ∀ j : ℕ, rest2[j]? = pq[i + 1 + j]? := by
      intro j
      have := hrest (j + 1)
      simpa [Nat.add_assoc, Nat.add_comm 1 j] using this
    by_cases hc : e2.2 < bestE.2
    · rw [if_pos hc]
      exact ih (i + 1) e2 i he2 hrest2
    · rw [if_neg hc]
      exact ih (i + 1) bestE bestI hb hrest2

theorem edgeW_addEdge {K : Type} (adj : List (ℕ × List (Edge K)))
    (a b : ℕ) (dd : K) (nm : Option String) (u v : ℕ) (w : K) :
    edgeW (addEdge adj a b dd nm) u v w ↔
      edgeW adj u v w ∨ (u = a ∧ v = b ∧ w = dd) := by
  rw [addEdge]
  cases hma : mapGet adj a with
  | none =>
    constructor
    · rintro ⟨e, he, hev, hew⟩
      rw [edgesOf, mapGet_cons] at he
      by_cases hua : u = a
      · rw [if_pos hua] at he
        simp at he
        subst he
        exact Or.inr ⟨hua, hev.symm, hew.symm⟩
      · rw [if_neg hua] at he
        exact Or.inl ⟨e, he, hev, hew⟩
    · rintro (⟨e, he, hev, hew⟩ | ⟨hua, hvb, hwd⟩)
      · by_cases hua : u = a
        · rw [edgeW, edgesOf] at *
          subst hua
          rw [hma] at he
          simp at he
        · exact ⟨e, by rw [edgesOf, mapGet_cons, if_neg hua]; exact he,
            hev, hew⟩
      · subst hua; subst hvb; subst hwd
        refine ⟨⟨v, w, nm⟩, ?_, rfl, rfl⟩
        rw [edgesOf, mapGet_cons, if_pos rfl]
        simp
  | some es =>
    constructor
    · rintro ⟨e, he, hev, hew⟩
      rw [edgesOf, mapGet_cons] at he
      by_cases hua : u = a
      · rw [if_pos hua] at he
        simp only [Option.getD_some] at he
        rcases List.mem_append.mp he with h | h
        · exact Or.inl ⟨e, by rw [edgesOf, hua, hma]; exact h, hev, hew⟩
        · simp at h
          subst h
          exact Or.inr ⟨hua, hev.symm, hew.symm⟩
      · rw [if_neg hua] at he
        exact Or.inl ⟨e, he, hev, hew⟩
    · rintro (⟨e, he, hev, hew⟩ | ⟨hua, hvb, hwd⟩)
      · by_cases hua : u = a
        · refine ⟨e, ?_, hev, hew⟩
          rw [edgesOf, mapGet_cons, if_pos hua]
          subst hua
          rw [edgesOf, hma] at he
          simp only [Option.getD_some] at he ⊢
          exact List.mem_append.mpr (Or.inl he)
        · exact ⟨e, by rw [edgesOf, mapGet_cons, if_neg hua]; exact he,
            hev, hew⟩
      · subst hua; subst hvb; subst hwd
        refine ⟨⟨v, w, nm⟩, ?_, rfl, rfl⟩
        rw [edgesOf, mapGet_cons, if_pos rfl]
        simp

theorem buildWay_pres {K : Type} (known : ℕ → Bool) (hav : ℕ → ℕ → K)
    (name : Option String) (P : List (ℕ × List (Edge K)) → Prop)
    (hstep : ∀ adj a b, P adj →
      P (addEdge (addEdge adj a b (hav a b) name) b a (hav a b) name)) :
    ∀ (ns : List ℕ) (adj : List (ℕ × List (Edge K))), P adj →
      P (buildWay known hav name ns adj) := by
  intro ns
  induction ns with
  | nil => intro adj h; exact h
  | cons a tail ih =>
    intro adj h
    match tail with
    | [] => exact h
    | b :: rest =>
      rw [buildWay]
      apply ih
      by_cases hk : known a && known b
      · rw [if_pos hk]; exact hstep adj a b h
      · rw [if_neg hk]; exact h

theorem buildGraph_pres {K : Type} (known : ℕ → Bool) (hav : ℕ → ℕ → K)
    (P : List (ℕ × List (Edge K)) → Prop)
    (hstep : ∀ adj a b (name : Option String), P adj →
      P (addEdge (addEdge adj a b (hav a b) name) b a (hav a b) name))
    (hnil : P []) (ways : List (List ℕ × Option String)) :
    P (buildGraph known hav ways) := by
  rw [buildGraph]
  have : ∀ (ws : List (List ℕ × Option String)) adj, P adj →
      P (ws.foldl (fun adj w => buildWay known hav w.2 w.1 adj) adj) := by
    intro ws
    induction ws with
    | nil => intro adj h; exact h
    | cons w rest ih =>
      intro adj h
      rw [List.foldl_cons]
      exact ih _ (buildWay_pres known hav w.2 P (fun a2 a b => hstep a2 a b w.2)
        w.1 adj h)
  exact this ways [] hnil

theorem edgeW_nil {K : Type} (u v : ℕ) (w : K) : ¬ edgeW ([] : List (ℕ × List (Edge K))) u v w := by
  rintro ⟨e, he, -, -⟩
  rw [edgesOf] at he
  simp [mapGet] at he

theorem buildGraph_symm {K : Type} (known : ℕ → Bool) (hav : ℕ → ℕ → K)
    (ways : List (List ℕ × Option String)) (u v : ℕ) (w : K)
    (h : edgeW (buildGraph known hav ways) u v w) :
    edgeW (buildGraph known hav ways) v u w := by
  revert u v w h
  apply buildGraph_pres known hav
    (fun adj => ∀ u v w, edgeW adj u v w → edgeW adj v u w)
  · intro adj a b name hP u v w h
    rw [edgeW_addEdge, edgeW_addEdge] at h ⊢
    rcases h with (h | ⟨hua, hvb, hwd⟩) | ⟨hub, hva, hwd⟩
    · exact Or.inl (Or.inl (hP u v w h))
    · exact Or.inr ⟨hvb, hua, hwd⟩
    · exact Or.inl (Or.inr ⟨hva, hub, hwd⟩)
  · intro u v w h
    exact absurd h (edgeW_nil u v w)

theorem buildGraph_wnonneg {K : Type} [LinearOrderedField K]
    (known : ℕ → Bool) (hav : ℕ → ℕ → K) (hw : ∀ a b, 0 ≤ hav a b)
    (ways : List (List ℕ × Option String)) (u v : ℕ) (w : K)
    (h : edgeW (buildGraph known hav ways) u v w) : 0 ≤ w := by
  revert u v w h
  apply buildGraph_pres known hav
    (fun adj => ∀ u v w, edgeW adj u v w → 0 ≤ w)
  · intro adj a b name hP u v w h
    rw [edgeW_addEdge, edgeW_addEdge] at h
    rcases h with (h | ⟨-, -, hwd⟩) | ⟨-, -, hwd⟩
    · exact hP u v w h
    · rw [hwd]; exact hw a b
    · rw [hwd]; exact hw a b
  · intro u v w h
    exact absurd h (edgeW_nil u v w)

theorem PathW_nonneg {K : Type} [LinearOrderedField K]
    (adj : List (ℕ × List (Edge K)))
    (hw : ∀ u v w, edgeW adj u v w → 0 ≤ w) :
    ∀ (s t : ℕ) (c : K), PathW adj s t c → 0 ≤ c := by
  intro s t c h
  induction h with
  | refl => exact le_refl 0
  | step hp he ih =>
    have := hw _ _ _ he
    linarith

theorem PathW_front {K : Type} [LinearOrderedField K]
    (adj : List (ℕ × List (Edge K))) (u v t : ℕ) (w c : K)
    (he : edgeW adj u v w) (hp : PathW adj v t c) :
    PathW adj u t (w + c) := by
  induction hp with
  | refl =>
    rw [add_zero, show (w : K) = 0 + w from (zero_add w).symm]
    exact PathW.step (PathW.refl u) he
  | step hp2 he2 ih =>
    rw [← add_assoc]
    exact PathW.step ih he2

theorem PathOn_toPathW {K : Type} [LinearOrderedField K]
    (adj : List (ℕ × List (Edge K))) :
    ∀ (l : List ℕ) (c : K), PathOn adj l c → ∀ s t : ℕ,
      l.head? = some s → l.getLast? = some t → PathW adj s t c := by
  intro l c h
  induction h with
  | single u =>
    intro s t hs ht
    simp at hs ht
    rw [← hs, ← ht]
    exact PathW.refl u
  | cons he hp ih =>
    intro s t hs ht
    simp only [List.head?_cons, Option.some.injEq] at hs
    rw [List.getLast?_cons_cons] at ht
    have := ih _ t rfl ht
    rw [← hs, show _ + _ = _ from rfl]
    rw [show ∀ c2 w2 : K, c2 + w2 = w2 + c2 from fun c2 w2 => by ring]
    exact PathW_front adj _ _ t _ _ he this

/-- The Dijkstra loop invariant over the state
`(d, p, vis, pq)` = (distance map, predecessor map, visited list, queue). -/
structure Inv {K : Type} [LinearOrderedField K]
    (adj : List (ℕ × List (Edge K))) (startId : ℕ)
    (d : List (ℕ × K)) (p : List (ℕ × ℕ)) (vis : List ℕ)
    (pq : List (ℕ × K)) : Prop where
  reach : ∀ v dv, mapGet d v = some dv → PathW adj startId v dv
  dstart : mapGet d startId = some 0
  pstart : mapGet p startId = none
  pqReach : ∀ e ∈ pq, PathW adj startId e.1 e.2
  pqDist : ∀ e ∈ pq, ∃ dv, mapGet d e.1 = some dv ∧ dv ≤ e.2
  inQueue : ∀ v dv, mapGet d v = some dv → vis.contains v = false →
      (v, dv) ∈ pq
  visOpt : ∀ x, vis.contains x = true → ∃ dx, mapGet d x = some dx ∧
      ∀ c, PathW adj startId x c → dx ≤ c
  relaxed : ∀ x, vis.contains x = true → ∀ e ∈ edgesOf adj x,
      vis.contains e.dest = true ∨ ∃ dx dv, mapGet d x = some dx ∧
        mapGet d e.dest = some dv ∧ dv ≤ dx + e.dist
  prevOk : ∀ v u2, mapGet p v = some u2 → vis.contains u2 = true ∧
      ∃ w du2, edgeW adj u2 v w ∧ mapGet d u2 = some du2 ∧
        mapGet d v = some (du2 + w)
  total : ∀ v dv, mapGet d v = some dv → v = startId ∨
      (mapGet p v).isSome = true

/-- What survives of the invariant at the end of the loop (the break at the
end node skips that node's relaxation, so `relaxed` is dropped). -/
structure Final {K : Type} [LinearOrderedField K]
    (adj : List (ℕ × List (Edge K))) (startId : ℕ)
    (d : List (ℕ × K)) (p : List (ℕ × ℕ)) (vis : List ℕ)
    (pq : List (ℕ × K)) : Prop where
  reach : ∀ v dv, mapGet d v = some dv → PathW adj startId v dv
  dstart : mapGet d startId = some 0
  pstart : mapGet p startId = none
  inQueue : ∀ v dv, mapGet d v = some dv → vis.contains v = false →
      (v, dv) ∈ pq
  visOpt : ∀ x, vis.contains x = true → ∃ dx, mapGet d x = some dx ∧
      ∀ c, PathW adj startId x c → dx ≤ c
  prevOk : ∀ v u2, mapGet p v = some u2 → vis.contains u2 = true ∧
      ∃ w du2, edgeW adj u2 v w ∧ mapGet d u2 = some du2 ∧
        mapGet d v = some (du2 + w)
  total : ∀ v dv, mapGet d v = some dv → v = startId ∨
      (mapGet p v).isSome = true

/-- Key step of the optimality argument: if `du` is a lower bound for every
queue key, then `du` is a lower bound for the cost of every path from the
start to any unvisited node (induction over the path, using the visited
optimality and relaxation invariants). -/
theorem dijkstra_key {K : Type} [LinearOrderedField K]
    (adj : List (ℕ × List (Edge K))) (startId : ℕ)
    (hw : ∀ a b w, edgeW adj a b w → 0 ≤ w)
    (d : List (ℕ × K)) (p : List (ℕ × ℕ)) (vis : List ℕ)
    (pq : List (ℕ × K)) (du : K)
    (hInv : Inv adj startId d p vis pq)
    (hmin : ∀ e ∈ pq, du ≤ e.2) :
    ∀ (v : ℕ) (c : K), PathW adj startId v c → vis.contains v = false →
      du ≤ c := by
  intro v c hpath
  induction hpath with
  | refl =>
    intro hnv
    exact hmin _ (hInv.inQueue startId 0 hInv.dstart hnv)
  | step hp he ih =>
    rename_i v2 x2 c2 w2
    intro hnx
    by_cases hv2 : vis.contains v2 = true
    · obtain ⟨dv2, hdv2, hopt⟩ := hInv.visOpt v2 hv2
      obtain ⟨e, hemem, hedest, hedist⟩ := he
      rcases hInv.relaxed v2 hv2 e hemem with hvis | ⟨dx, dvx, hdx, hdvx, hle⟩
      · rw [hedest, hnx] at hvis
        simp at hvis
      · have hq := hInv.inQueue x2 dvx (by rw [← hedest]; exact hdvx) hnx
        have h1 := hmin _ hq
        rw [hdv2] at hdx
        injection hdx with hdd
        have h2 := hopt c2 hp
        rw [← hedist]
        simp only at h1
        linarith
    · have hcf : vis.contains v2 = false := by
        cases hvb : vis.contains v2
        · rfl
        · exact absurd hvb hv2
      have h := ih hcf
      have hw2 := hw v2 x2 w2 he
      linarith

/-- The outcome of the relaxation loop, relative to the pre-relaxation
distance map `d0`: the invariant fields are maintained, visited distances
are untouched, distances only decrease, and every processed edge ends up
either visited or relaxed. -/
structure RelaxOut {K : Type} [LinearOrderedField K]
    (adj : List (ℕ × List (Edge K))) (startId : ℕ) (vis : List ℕ)
    (u : ℕ) (du : K) (es : List (Edge K)) (d0 : List (ℕ × K))
    (st : List (ℕ × K) × List (ℕ × ℕ) × List (ℕ × K)) : Prop where
  du_kept : mapGet st.1 u = some du
  reach : ∀ v dv, mapGet st.1 v = some dv → PathW adj startId v dv
  dstart : mapGet st.1 startId = some 0
  pstart : mapGet st.2.1 startId = none
  pqReach : ∀ e ∈ st.2.2, PathW adj startId e.1 e.2
  pqDist : ∀ e ∈ st.2.2, ∃ dv, mapGet st.1 e.1 = some dv ∧ dv ≤ e.2
  inQueue : ∀ v dv, mapGet st.1 v = some dv → vis.contains v = false →
      (v, dv) ∈ st.2.2
  visOpt : ∀ x, vis.contains x = true → ∃ dx, mapGet st.1 x = some dx ∧
      ∀ c, PathW adj startId x c → dx ≤ c
  prevOk : ∀ v u2, mapGet st.2.1 v = some u2 → vis.contains u2 = true ∧
      ∃ w du2, edgeW adj u2 v w ∧ mapGet st.1 u2 = some du2 ∧
        mapGet st.1 v = some (du2 + w)
  total : ∀ v dv, mapGet st.1 v = some dv → v = startId ∨
      (mapGet st.2.1 v).isSome = true
  visSame : ∀ x, vis.contains x = true → mapGet st.1 x = mapGet d0 x
  mono : ∀ v dv, mapGet d0 v = some dv → ∃ dv2, mapGet st.1 v = some dv2 ∧
      dv2 ≤ dv
  relaxed : ∀ e ∈ es, vis.contains e.dest = true ∨
      ∃ dv, mapGet st.1 e.dest = some dv ∧ dv ≤ du + e.dist

theorem relaxEdges_spec {K : Type} [LinearOrderedField K]
    (adj : List (ℕ × List (Edge K))) (startId : ℕ)
    (hw : ∀ a b w, edgeW adj a b w → 0 ≤ w) (vis : List ℕ) (u : ℕ) (du : K)
    (hu : vis.contains u = true) (hpu : PathW adj startId u du) :
    ∀ (es : List (Edge K)) (d : List (ℕ × K)) (p : List (ℕ × ℕ))
      (pq : List (ℕ × K)),
      (∀ e ∈ es, e ∈ edgesOf adj u) →
      mapGet d u = some du →
      (∀ v dv, mapGet d v = some dv → PathW adj startId v dv) →
      mapGet d startId = some 0 →
      mapGet p startId = none →
      (∀ e ∈ pq, PathW adj startId e.1 e.2) →
      (∀ e ∈ pq, ∃ dv, mapGet d e.1 = some dv ∧ dv ≤ e.2) →
      (∀ v dv, mapGet d v = some dv → vis.contains v = false → (v, dv) ∈ pq) →
      (∀ x, vis.contains x = true → ∃ dx, mapGet d x = some dx ∧
        ∀ c, PathW adj startId x c → dx ≤ c) →
      (∀ v u2, mapGet p v = some u2 → vis.contains u2 = true ∧
        ∃ w du2, edgeW adj u2 v w ∧ mapGet d u2 = some du2 ∧
          mapGet d v = some (du2 + w)) →
      (∀ v dv, mapGet d v = some dv → v = startId ∨
        (mapGet p v).isSome = true) →
      RelaxOut adj startId vis u du es d (relaxEdges vis u du es d p pq) := by
  intro es
  induction es with
  | nil =>
    intro d p pq hes hdu hreach hds hps hpqr hpqd hinq hvopt hprev htot
    rw [relaxEdges]
    exact ⟨hdu, hreach, hds, hps, hpqr, hpqd, hinq, hvopt, hprev, htot,
      fun x hx => rfl, fun v dv h => ⟨dv, h, le_refl dv⟩, by simp⟩
  | cons e es ih =>
    intro d p pq hes hdu hreach hds hps hpqr hpqd hinq hvopt hprev htot
    have hestail : ∀ e2 ∈ es, e2 ∈ edgesOf adj u :=
      fun e2 he2 => hes e2 (List.mem_cons.mpr (Or.inr he2))
    have hedge : edgeW adj u e.dest e.dist :=
      ⟨e, hes e (List.mem_cons.mpr (Or.inl rfl)), rfl, rfl⟩
    rw [relaxEdges]
    by_cases hcont : vis.contains e.dest = true
    · rw [if_pos hcont]
      have h := ih d p pq hestail hdu hreach hds hps hpqr hpqd hinq hvopt
        hprev htot
      exact ⟨h.du_kept, h.reach, h.dstart, h.pstart, h.pqReach, h.pqDist,
        h.inQueue, h.visOpt, h.prevOk, h.total, h.visSame, h.mono,
        fun e2 he2 => by
          rcases List.mem_cons.mp he2 with h2 | h2
          · rw [h2]; exact Or.inl hcont
          · exact h.relaxed e2 h2⟩
    · rw [if_neg hcont]
      have hcf : vis.contains e.dest = false := by
        cases hvb : vis.contains e.dest
        · rfl
        · exact absurd hvb hcont
      have hne_u : e.dest ≠ u := by
        intro hcon
        rw [hcon, hu] at hcf
        simp at hcf
      have hdu0 : 0 ≤ du := PathW_nonneg adj hw startId u du hpu
      have hwe : 0 ≤ e.dist := hw u e.dest e.dist hedge
      by_cases hcond : (match mapGet d e.dest with
          | none => true
          | some dv => decide (du + e.dist < dv)) = true
      · rw [if_pos hcond]
        have hcase : ∀ dvv, mapGet d e.dest = some dvv → du + e.dist < dvv := by
          intro dvv hdvv
          rw [hdvv] at hcond
          simpa using hcond
        have hne_start : e.dest ≠ startId := by
          intro hcon
          have := hcase 0 (by rw [hcon]; exact hds)
          linarith
        have hpnd : PathW adj startId e.dest (du + e.dist) :=
          PathW.step hpu hedge
        have h := ih ((e.dest, du + e.dist) :: d) ((e.dest, u) :: p)
          (pq ++ [(e.dest, du + e.dist)]) hestail
          (by rw [mapGet_cons, if_neg (Ne.symm hne_u)]; exact hdu)
          (by
            intro v dv hv
            rw [mapGet_cons] at hv
            by_cases hvd : v = e.dest
            · rw [if_pos hvd] at hv
              injection hv with hv
              rw [← hv, hvd]
              exact hpnd
            · rw [if_neg hvd] at hv
              exact hreach v dv hv)
          (by rw [mapGet_cons, if_neg (fun h2 => hne_start h2.symm)]
              exact hds)
          (by rw [mapGet_cons, if_neg (fun h2 => hne_start h2.symm)]
              exact hps)
          (by
            intro e2 he2
            rcases List.mem_append.mp he2 with h2 | h2
            · exact hpqr e2 h2
            · simp at h2
              rw [h2]
              exact hpnd)
          (by
            intro e2 he2
            rcases List.mem_append.mp he2 with h2 | h2
            · obtain ⟨dv, hdv, hdvle⟩ := hpqd e2 h2
              by_cases hvd : e2.1 = e.dest
              · refine ⟨du + e.dist, ?_, ?_⟩
                · rw [hvd, mapGet_cons, if_pos rfl]
                · rw [hvd] at hdv
                  exact (hcase dv hdv).le.trans hdvle
              · exact ⟨dv, by rw [mapGet_cons, if_neg hvd]; exact hdv, hdvle⟩
            · simp at h2
              subst h2
              exact ⟨du + e.dist, by rw [mapGet_cons]; simp, by simp⟩)
          (by
            intro v dv hv hvf
            rw [mapGet_cons] at hv
            by_cases hvd : v = e.dest
            · rw [if_pos hvd] at hv
              injection hv with hv
              rw [hvd, ← hv]
              exact List.mem_append.mpr (Or.inr (by simp))
            · rw [if_neg hvd] at hv
              exact List.mem_append.mpr (Or.inl (hinq v dv hv hvf)))
          (by
            intro x hx
            obtain ⟨dx, hdx, hxo⟩ := hvopt x hx
            refine ⟨dx, ?_, hxo⟩
            rw [mapGet_cons, if_neg]
            · exact hdx
            · intro hcon
              rw [hcon, hcf] at hx
              cases hx)
          (by
            intro v u2 hv
            rw [mapGet_cons] at hv
            by_cases hvd : v = e.dest
            · rw [if_pos hvd] at hv
              injection hv with hv
              rw [← hv, hvd]
              refine ⟨hu, e.dist, du, hedge, ?_, ?_⟩
              · rw [mapGet_cons, if_neg (Ne.symm hne_u)]
                exact hdu
              · rw [mapGet_cons, if_pos rfl]
            · rw [if_neg hvd] at hv
              obtain ⟨hu2v, w2, du2, hew, hdu2, hdv2⟩ := hprev v u2 hv
              refine ⟨hu2v, w2, du2, hew, ?_, ?_⟩
              · rw [mapGet_cons, if_neg]
                · exact hdu2
                · intro hcon
                  rw [hcon, hcf] at hu2v
                  cases hu2v
              · rw [mapGet_cons, if_neg hvd]
                exact hdv2)
          (by
            intro v dv hv
            rw [mapGet_cons] at hv
            by_cases hvd : v = e.dest
            · right
              rw [mapGet_cons, if_pos hvd]
              rfl
            · rw [if_neg hvd] at hv
              rcases htot v dv hv with h2 | h2
              · exact Or.inl h2
              · right
                rw [mapGet_cons, if_neg hvd]
                exact h2)
        refine ⟨h.du_kept, h.reach, h.dstart, h.pstart, h.pqReach, h.pqDist,
          h.inQueue, h.visOpt, h.prevOk, h.total, ?_, ?_, ?_⟩
        · intro x hx
          rw [h.visSame x hx, mapGet_cons, if_neg]
          intro hcon
          rw [hcon, hcf] at hx
          cases hx
        · intro v dv hv
          by_cases hvd : v = e.dest
          · obtain ⟨dv2, hdv2, hdvle⟩ := h.mono e.dest (du + e.dist)
              (by rw [mapGet_cons, if_pos rfl])
            refine ⟨dv2, by rw [hvd]; exact hdv2, ?_⟩
            rw [hvd] at hv
            exact hdvle.trans (hcase dv hv).le
          · exact h.mono v dv (by rw [mapGet_cons, if_neg hvd]; exact hv)
        · intro e2 he2
          rcases List.mem_cons.mp he2 with h2 | h2
          · right
            rw [h2]
            obtain ⟨dv2, hdv2, hdvle⟩ := h.mono e.dest (du + e.dist)
              (by rw [mapGet_cons, if_pos rfl])
            exact ⟨dv2, hdv2, hdvle⟩
          · exact h.relaxed e2 h2
      · rw [if_neg hcond]
        have hsome : ∃ dv0, mapGet d e.dest = some dv0 ∧
            ¬ (du + e.dist < dv0) := by
          cases hmd : mapGet d e.dest with
          | none => rw [hmd] at hcond; simp at hcond
          | some dv0 =>
            refine ⟨dv0, rfl, ?_⟩
            rw [hmd] at hcond
            simpa using hcond
        obtain ⟨dv0, hmd, himp⟩ := hsome
        have h := ih d p pq hestail hdu hreach hds hps hpqr hpqd hinq hvopt
          hprev htot
        refine ⟨h.du_kept, h.reach, h.dstart, h.pstart, h.pqReach, h.pqDist,
          h.inQueue, h.visOpt, h.prevOk, h.total, h.visSame, h.mono, ?_⟩
        intro e2 he2
        rcases List.mem_cons.mp he2 with h2 | h2
        · right
          rw [h2]
          obtain ⟨dv2, hdv2, hdvle⟩ := h.mono e.dest dv0 hmd
          exact ⟨dv2, hdv2, hdvle.trans (not_lt.mp himp)⟩
        · exact h.relaxed e2 h2

theorem contains_cons_iff (l : List ℕ) (a x : ℕ) :
    (a :: l).contains x = true ↔ x = a ∨ l.contains x = true := by
  simp [List.contains_cons]

theorem contains_cons_false (l : List ℕ) (a x : ℕ)
    (h : (a :: l).contains x = false) : x ≠ a ∧ l.contains x = false := by
  have h2 : ¬ ((a :: l).contains x = true) := by rw [h]; simp
  rw [contains_cons_iff] at h2
  push_neg at h2
  refine ⟨h2.1, ?_⟩
  cases hl : l.contains x
  · rfl
  · exact absurd hl h2.2

theorem dloop_spec {K : Type} [LinearOrderedField K]
    (adj : List (ℕ × List (Edge K))) (startId endId : ℕ)
    (hw : ∀ a b w, edgeW adj a b w → 0 ≤ w) :
    ∀ (fuel : ℕ) (d : List (ℕ × K)) (p : List (ℕ × ℕ)) (vis : List ℕ)
      (pq : List (ℕ × K))
      (out : List (ℕ × K) × List (ℕ × ℕ) × List ℕ × List (ℕ × K)),
      Inv adj startId d p vis pq →
      dloop adj endId fuel d p vis pq = some out →
      Final adj startId out.1 out.2.1 out.2.2.1 out.2.2.2 ∧
        (out.2.2.2 = [] ∨ out.2.2.1.contains endId = true) := by
  intro fuel
  induction fuel with
  | zero =>
    intro d p vis pq out hInv hrun
    cases pq with
    | nil =>
      rw [dloop.eq_def] at hrun
      dsimp only at hrun
      injection hrun with hrun
      rw [← hrun]
      exact ⟨⟨hInv.reach, hInv.dstart, hInv.pstart, hInv.inQueue,
        hInv.visOpt, hInv.prevOk, hInv.total⟩, Or.inl rfl⟩
    | cons e rest =>
      rw [dloop.eq_def] at hrun
      dsimp only at hrun
      cases hrun
  | succ fuel ih =>
    intro d p vis pq out hInv hrun
    cases pq with
    | nil =>
      rw [dloop.eq_def] at hrun
      dsimp only at hrun
      injection hrun with hrun
      rw [← hrun]
      exact ⟨⟨hInv.reach, hInv.dstart, hInv.pstart, hInv.inQueue,
        hInv.visOpt, hInv.prevOk, hInv.total⟩, Or.inl rfl⟩
    | cons e rest =>
      rw [dloop.eq_def] at hrun
      dsimp only at hrun
      have hscmem : (extractScan rest 1 e 0).2 ∈ e :: rest := by
        rcases extractScan_mem rest 1 e 0 with h | h
        · rw [h]; exact List.mem_cons.mpr (Or.inl rfl)
        · exact List.mem_cons.mpr (Or.inr h)
      have hscmin : ∀ x ∈ e :: rest, (extractScan rest 1 e 0).2.2 ≤ x.2 := by
        intro x hx
        rcases List.mem_cons.mp hx with h | h
        · rw [h]; exact (extractScan_min rest 1 e 0).1
        · exact (extractScan_min rest 1 e 0).2 x h
      have hidx : (e :: rest)[(extractScan rest 1 e 0).1]? =
          some (extractScan rest 1 e 0).2 := by
        apply extractScan_getElem (e :: rest) rest 1 e 0
        · simp
        · intro j
          rw [Nat.add_comm 1 j]
          simp
      have herase : ∀ x : ℕ × K, x ∈ e :: rest →
          x ≠ (extractScan rest 1 e 0).2 →
          x ∈ (e :: rest).eraseIdx (extractScan rest 1 e 0).1 := by
        intro x hx hne
        apply mem_eraseIdx_of_ne (e :: rest) _ x hx
        rw [hidx]
        intro hcon
        injection hcon with hcon
        exact hne hcon.symm
      have hsubs : ∀ x : ℕ × K,
          x ∈ (e :: rest).eraseIdx (extractScan rest 1 e 0).1 →
          x ∈ e :: rest :=
        fun x hx => mem_of_mem_eraseIdx (e :: rest) _ x hx
      by_cases hvisu : vis.contains (extractScan rest 1 e 0).2.1 = true
      · rw [if_pos hvisu] at hrun
        refine ih d p vis ((e :: rest).eraseIdx (extractScan rest 1 e 0).1)
          out ⟨hInv.reach, hInv.dstart, hInv.pstart,
            fun e2 he2 => hInv.pqReach e2 (hsubs e2 he2),
            fun e2 he2 => hInv.pqDist e2 (hsubs e2 he2), ?_,
            hInv.visOpt, hInv.relaxed, hInv.prevOk, hInv.total⟩ hrun
        intro v dv hv hvf
        apply herase (v, dv) (hInv.inQueue v dv hv hvf)
        intro hcon
        have hv1 : v = (extractScan rest 1 e 0).2.1 := congrArg Prod.fst hcon
        rw [hv1, hvisu] at hvf
        cases hvf
      · rw [if_neg hvisu] at hrun
        have hvf : vis.contains (extractScan rest 1 e 0).2.1 = false := by
          cases hvb : vis.contains (extractScan rest 1 e 0).2.1
          · rfl
          · exact absurd hvb hvisu
        obtain ⟨dv0, hdv0, hdv0le⟩ := hInv.pqDist _ hscmem
        have hq0 := hInv.inQueue _ dv0 hdv0 hvf
        have hle0 := hscmin _ hq0
        have hdusc : mapGet d (extractScan rest 1 e 0).2.1 =
            some (extractScan rest 1 e 0).2.2 := by
          rw [hdv0]
          exact congrArg some (le_antisymm (by simpa using hle0) hdv0le).symm
        have hKey := dijkstra_key adj startId hw d p vis (e :: rest)
          (extractScan rest 1 e 0).2.2 hInv (fun e2 he2 => hscmin e2 he2)
        have hOptU : ∀ c, PathW adj startId (extractScan rest 1 e 0).2.1 c →
            (extractScan rest 1 e 0).2.2 ≤ c :=
          fun c hc => hKey _ c hc hvf
        have hvisOpt2 : ∀ x,
            ((extractScan rest 1 e 0).2.1 :: vis).contains x = true →
            ∃ dx, mapGet d x = some dx ∧
              ∀ c, PathW adj startId x c → dx ≤ c := by
          intro x hx
          rcases (contains_cons_iff _ _ _).mp hx with h | h
          · rw [h]
            exact ⟨_, hdusc, hOptU⟩
          · exact hInv.visOpt x h
        have hinQueue2 : ∀ v dv, mapGet d v = some dv →
            ((extractScan rest 1 e 0).2.1 :: vis).contains v = false →
            (v, dv) ∈ (e :: rest).eraseIdx (extractScan rest 1 e 0).1 := by
          intro v dv hv hvf2
          obtain ⟨hvne, hvfold⟩ := contains_cons_false _ _ _ hvf2
          apply herase (v, dv) (hInv.inQueue v dv hv hvfold)
          intro hcon
          exact hvne (congrArg Prod.fst hcon)
        have hprev2 : ∀ v u2, mapGet p v = some u2 →
            ((extractScan rest 1 e 0).2.1 :: vis).contains u2 = true ∧
            ∃ w du2, edgeW adj u2 v w ∧ mapGet d u2 = some du2 ∧
              mapGet d v = some (du2 + w) := by
          intro v u2 hv
          obtain ⟨hu2v, hrest2⟩ := hInv.prevOk v u2 hv
          exact ⟨(contains_cons_iff _ _ _).mpr (Or.inr hu2v), hrest2⟩
        by_cases hend : (extractScan rest 1 e 0).2.1 = endId
        · rw [if_pos hend] at hrun
          injection hrun with hrun
          rw [← hrun]
          refine ⟨⟨hInv.reach, hInv.dstart, hInv.pstart, hinQueue2,
            hvisOpt2, hprev2, hInv.total⟩, Or.inr ?_⟩
          rw [← hend]
          exact (contains_cons_iff _ _ _).mpr (Or.inl rfl)
        · rw [if_neg hend] at hrun
          have hpu : PathW adj startId (extractScan rest 1 e 0).2.1
              (extractScan rest 1 e 0).2.2 := hInv.pqReach _ hscmem
          have hR := relaxEdges_spec adj startId hw
            ((extractScan rest 1 e 0).2.1 :: vis)
            (extractScan rest 1 e 0).2.1 (extractScan rest 1 e 0).2.2
            ((contains_cons_iff _ _ _).mpr (Or.inl rfl)) hpu
            (edgesOf adj (extractScan rest 1 e 0).2.1) d p
            ((e :: rest).eraseIdx (extractScan rest 1 e 0).1)
            (fun e2 he2 => he2) hdusc hInv.reach hInv.dstart hInv.pstart
            (fun e2 he2 => hInv.pqReach e2 (hsubs e2 he2))
            (fun e2 he2 => hInv.pqDist e2 (hsubs e2 he2))
            hinQueue2 hvisOpt2 hprev2 hInv.total
          refine ih _ _ _ _ out ⟨hR.reach, hR.dstart, hR.pstart, hR.pqReach,
            hR.pqDist, hR.inQueue, hR.visOpt, ?_, hR.prevOk, hR.total⟩ hrun
          intro x hx e2 he2
          rcases (contains_cons_iff _ _ _).mp hx with h | h
          · rcases hR.relaxed e2 (by rw [← h]; exact he2) with h2 | ⟨dv, hdv, hlev⟩
            · exact Or.inl h2
            · right
              refine ⟨(extractScan rest 1 e 0).2.2, dv, ?_, hdv, ?_⟩
              · rw [h]; exact hR.du_kept
              · exact hlev
          · rcases hInv.relaxed x h e2 he2 with h2 | ⟨dx, dv, hdx, hdv, hlev⟩
            · exact Or.inl ((contains_cons_iff _ _ _).mpr (Or.inr h2))
            · right
              obtain ⟨dv2, hdv2, hdv2le⟩ := hR.mono e2.dest dv hdv
              refine ⟨dx, dv2, ?_, hdv2, by linarith⟩
              rw [hR.visSame x ((contains_cons_iff _ _ _).mpr (Or.inr h))]
              exact hdx

theorem rebuild_spec (p : List (ℕ × ℕ)) :
    ∀ (fuel : ℕ) (cur : ℕ) (acc out : List ℕ),
      rebuild p fuel cur acc = some out →
      ∃ chain : List ℕ, out = chain ++ acc ∧ chain ≠ [] ∧
        chain.getLast? = some cur ∧
        List.Chain' (fun a b => mapGet p b = some a) chain ∧
        ∃ t, chain.head? = some t ∧ mapGet p t = none := by
  intro fuel
  induction fuel with
  | zero =>
    intro cur acc out h
    rw [rebuild] at h
    cases h
  | succ fuel ih =>
    intro cur acc out h
    rw [rebuild] at h
    cases hpc : mapGet p cur with
    | none =>
      rw [hpc] at h
      injection h with h
      exact ⟨[cur], by rw [← h]; rfl, by simp, by simp, by simp,
        cur, by simp, hpc⟩
    | some pr =>
      rw [hpc] at h
      obtain ⟨chain2, hout, hne, hlast, hchain, t, hhead, hpt⟩ :=
        ih pr (cur :: acc) out h
      refine ⟨chain2 ++ [cur], by rw [hout, List.append_assoc]; rfl,
        by simp, by simp, ?_, t, ?_, hpt⟩
      · rw [List.chain'_append]
        refine ⟨hchain, by simp, ?_⟩
        intro x hx y hy
        simp only [List.head?_cons, Option.mem_def, Option.some.injEq] at hy
        rw [hlast] at hx
        simp only [Option.mem_def, Option.some.injEq] at hx
        rw [← hy, ← hx]
        exact hpc
      · rw [List.head?_append_of_ne_nil _ hne]
        exact hhead

theorem chain_cost {K : Type} [LinearOrderedField K]
    (adj : List (ℕ × List (Edge K))) (d : List (ℕ × K)) (p : List (ℕ × ℕ))
    (hprev : ∀ v u2, mapGet p v = some u2 →
      ∃ w du2, edgeW adj u2 v w ∧ mapGet d u2 = some du2 ∧
        mapGet d v = some (du2 + w)) :
    ∀ (chain : List ℕ), List.Chain' (fun a b => mapGet p b = some a) chain →
      ∀ (t v : ℕ), chain.head? = some t → chain.getLast? = some v →
      ∀ dv, mapGet d v = some dv →
      ∃ dt, mapGet d t = some dt ∧ PathOn adj chain (dv - dt) := by
  intro chain
  induction chain with
  | nil => intro _ t v ht; simp at ht
  | cons a rest ih =>
    intro hchain t v ht hlast dv hdv
    simp only [List.head?_cons, Option.some.injEq] at ht
    subst ht
    cases rest with
    | nil =>
      simp at hlast
      subst hlast
      refine ⟨dv, hdv, ?_⟩
      rw [sub_self]
      exact PathOn.single a
    | cons b rest2 =>
      rw [List.chain'_cons] at hchain
      obtain ⟨w, du2, hedge, hda, hdb⟩ := hprev b a hchain.1
      rw [List.getLast?_cons_cons] at hlast
      obtain ⟨dt2, hdt2, hOn⟩ := ih hchain.2 b v rfl hlast dv hdv
      rw [hdb] at hdt2
      injection hdt2 with hdt2
      refine ⟨du2, hda, ?_⟩
      have hcons := PathOn.cons hedge hOn
      have heq : dv - dt2 + w = dv - du2 := by rw [← hdt2]; ring
      rw [heq] at hcons
      exact hcons

/-- Core correctness of the modelled `dijkstra`: a returned path starts at
the start node, ends at the end node, follows forward edges of the
adjacency map, and its total edge weight is minimal among all edge paths
between those two nodes (given non-negative edge weights). -/
theorem dijkstra_spec {K : Type} [LinearOrderedField K]
    (adj : List (ℕ × List (Edge K))) (startId endId fuel : ℕ)
    (path : List ℕ)
    (hw : ∀ a b w, edgeW adj a b w → 0 ≤ w)
    (hrun : dijkstra adj startId endId fuel = some path) :
    path.head? = some startId ∧ path.getLast? = some endId ∧
    List.Chain' (fun a b => hasEdge adj a b) path ∧
    ∃ c : K, PathOn adj path c ∧
      ∀ (path2 : List ℕ) (c2 : K), PathOn adj path2 c2 →
        path2.head? = some startId → path2.getLast? = some endId →
        c ≤ c2 := by
  rw [dijkstra] at hrun
  cases hdl : dloop adj endId fuel [(startId, 0)] [] [] [(startId, 0)] with
  | none => rw [hdl] at hrun; cases hrun
  | some st =>
    rw [hdl] at hrun
    obtain ⟨d2, p2, vis2, pq2⟩ := st
    have hInit : Inv adj startId [(startId, 0)] [] [] [(startId, 0)] := by
      refine ⟨?_, ?_, rfl, ?_, ?_, ?_, ?_, ?_, ?_, ?_⟩
      · intro v dv hv
        rw [mapGet_cons] at hv
        by_cases hvs : v = startId
        · rw [if_pos hvs] at hv
          injection hv with hv
          rw [hvs, ← hv]
          exact PathW.refl startId
        · rw [if_neg hvs] at hv
          simp [mapGet] at hv
      · rw [mapGet_cons, if_pos rfl]
      · intro e he
        simp only [List.mem_singleton] at he
        subst he
        exact PathW.refl startId
      · intro e he
        simp only [List.mem_singleton] at he
        subst he
        exact ⟨0, by simp [mapGet_cons], by simp⟩
      · intro v dv hv hvf
        rw [mapGet_cons] at hv
        by_cases hvs : v = startId
        · rw [if_pos hvs] at hv
          injection hv with hv
          rw [hvs, ← hv]
          exact List.mem_cons.mpr (Or.inl rfl)
        · rw [if_neg hvs] at hv
          simp [mapGet] at hv
      · intro x hx
        simp at hx
      · intro x hx
        simp at hx
      · intro v u2 hv
        simp [mapGet] at hv
      · intro v dv hv
        rw [mapGet_cons] at hv
        by_cases hvs : v = startId
        · exact Or.inl hvs
        · rw [if_neg hvs] at hv
          simp [mapGet] at hv
    obtain ⟨hfin, hterm⟩ := dloop_spec adj startId endId hw fuel _ _ _ _
      (d2, p2, vis2, pq2) hInit hdl
    simp only at hfin hterm hrun
    by_cases hguard : (mapGet p2 endId).isNone = true ∧ startId ≠ endId
    · rw [if_pos hguard] at hrun
      cases hrun
    · rw [if_neg hguard] at hrun
      obtain ⟨chain, hout, hne, hlastc, hchain, t, hhead, hpt⟩ :=
        rebuild_spec p2 (p2.length + 1) endId [] path hrun
      rw [List.append_nil] at hout
      have hdend : ∃ dend, mapGet d2 endId = some dend := by
        by_cases hse : startId = endId
        · exact ⟨0, by rw [← hse]; exact hfin.dstart⟩
        · have hsome : (mapGet p2 endId).isSome = true := by
            cases hpe : mapGet p2 endId with
            | none => exact absurd ⟨by rw [hpe]; rfl, hse⟩ hguard
            | some x => rfl
          cases hpe : mapGet p2 endId with
          | none => rw [hpe] at hsome; cases hsome
          | some u2 =>
            obtain ⟨-, w, du2, -, -, hde⟩ := hfin.prevOk endId u2 hpe
            exact ⟨du2 + w, hde⟩
      obtain ⟨dend, hdend⟩ := hdend
      have hvisend : vis2.contains endId = true := by
        rcases hterm with hpq | hv
        · cases hvb : vis2.contains endId
          · have := hfin.inQueue endId dend hdend hvb
            rw [hpq] at this
            simp at this
          · rfl
        · exact hv
      obtain ⟨dE, hdE, hopt⟩ := hfin.visOpt endId hvisend
      rw [hdend] at hdE
      injection hdE with hdE
      obtain ⟨dt, hdt, hOn⟩ := chain_cost adj d2 p2
        (fun v u2 hv => (hfin.prevOk v u2 hv).2) chain hchain t endId
        hhead hlastc dend hdend
      have hts : t = startId := by
        rcases hfin.total t dt hdt with h | h
        · exact h
        · rw [hpt] at h
          cases h
      have hdt0 : dt = 0 := by
        rw [hts, hfin.dstart] at hdt
        injection hdt with hdt
        exact hdt.symm
      rw [hdt0, sub_zero] at hOn
      refine ⟨by rw [hout, hhead, hts], by rw [hout]; exact hlastc, ?_, dend,
        by rw [hout]; exact hOn, ?_⟩
      · rw [hout]
        refine List.Chain'.imp ?_ hchain
        intro a b hab
        obtain ⟨-, w, du2, ⟨e, he, hdest, -⟩, -, -⟩ := hfin.prevOk b a hab
        exact ⟨e, he, hdest⟩
      · intro path2 c2 hP2 hh2 hl2
        have := PathOn_toPathW adj path2 c2 hP2 startId endId hh2 hl2
        rw [hdE]
        exact hopt c2 this

/-- **C3.**  For every invocation of the Dijkstra search on the graph built
by `buildGraph` (in particular the one per consecutive waypoint pair,
including the wrap-around pair), when it returns a non-null path: the path
starts at the first node and ends at the second; every consecutive node
pair along it is joined by an edge present in the adjacency structure in
both directions (`addEdge` inserts both directions with the same weight);
and its total edge weight is minimal among all edge paths between those two
nodes, the edge weights being the non-negative haversine distances. -/
theorem dijkstra_buildGraph_correct {K : Type} [LinearOrderedField K]
    (known : ℕ → Bool) (hav : ℕ → ℕ → K) (hw : ∀ a b, 0 ≤ hav a b)
    (ways : List (List ℕ × Option String)) (startId endId fuel : ℕ)
    (path : List ℕ)
    (hrun : dijkstra (buildGraph known hav ways) startId endId fuel =
      some path) :
    path.head? = some startId ∧ path.getLast? = some endId ∧
    List.Chain' (fun a b => hasEdge (buildGraph known hav ways) a b ∧
      hasEdge (buildGraph known hav ways) b a) path ∧
    ∃ c : K, PathOn (buildGraph known hav ways) path c ∧
      ∀ (path2 : List ℕ) (c2 : K),
        PathOn (buildGraph known hav ways) path2 c2 →
        path2.head? = some startId → path2.getLast? = some endId →
        c ≤ c2 := by
  have hwn : ∀ a b w, edgeW (buildGraph known hav ways) a b w → 0 ≤ w :=
    buildGraph_wnonneg known hav hw ways
  obtain ⟨h1, h2, h3, c, h4, h5⟩ := dijkstra_spec (buildGraph known hav ways)
    startId endId fuel path hwn hrun
  refine ⟨h1, h2, ?_, c, h4, h5⟩
  refine List.Chain'.imp ?_ h3
  intro a b hab
  refine ⟨hab, ?_⟩
  obtain ⟨e, he, hdest⟩ := hab
  obtain ⟨e2, he2, hd2, -⟩ := buildGraph_symm known hav ways a b e.dist
    ⟨e, he, hdest, rfl⟩
  exact ⟨e2, he2, hd2⟩

theorem dijkstra_buildGraph_correct_witness :
    (∀ a b : ℕ, 0 ≤ (fun _ _ : ℕ => (1 : ℚ)) a b) ∧
    dijkstra (buildGraph (fun _ => true) (fun _ _ : ℕ => (1 : ℚ))
      [([1, 2], some "A")]) 1 2 3 = some [1, 2] ∧
    (([1, 2] : List ℕ).head? = some 1 ∧
      ([1, 2] : List ℕ).getLast? = some 2 ∧
      List.Chain' (fun a b =>
        hasEdge (buildGraph (fun _ => true) (fun _ _ : ℕ => (1 : ℚ))
          [([1, 2], some "A")]) a b ∧
        hasEdge (buildGraph (fun _ => true) (fun _ _ : ℕ => (1 : ℚ))
          [([1, 2], some "A")]) b a) [1, 2] ∧
      ∃ c : ℚ, PathOn (buildGraph (fun _ => true) (fun _ _ : ℕ => (1 : ℚ))
          [([1, 2], some "A")]) [1, 2] c ∧
        ∀ (path2 : List ℕ) (c2 : ℚ),
          PathOn (buildGraph (fun _ => true) (fun _ _ : ℕ => (1 : ℚ))
            [([1, 2], some "A")]) path2 c2 →
          path2.head? = some 1 → path2.getLast? = some 2 → c ≤ c2) :=
  ⟨fun a b => by norm_num, rfl,
    dijkstra_buildGraph_correct (fun _ => true) (fun _ _ : ℕ => (1 : ℚ))
      (fun a b => by norm_num) [([1, 2], some "A")] 1 2 3 [1, 2] rfl⟩

end RouteGen
